import Mathlib

/-!
Verification of the redux-flexible-backup core: the declarative backup/restore
engine (createBackup / loadBackup, in the dependency-loader variant and the
plain variant) and the diff-based undo/redo orchestrator
(createUndoableReducer, saveMoment, restoreMoment, updatePresentMoment).

The embedding follows the TypeScript sources closely:

* JavaScript runtime values are modelled by the inductive type Value; plain
  objects are association lists in property-insertion order, as JavaScript
  objects are.  Property read on an absent key yields the undefined value,
  property assignment on an existing key replaces in place, assignment on a
  fresh key appends; object spread copies own enumerable properties in order,
  including properties whose value is undefined.
* The dependency-loader backup module translates the per-call state of
  loadBackup (loaded, loadedKeys, loadQueue) explicitly; slice load functions
  become programs in the small free-monad type LoadProg whose effects are the
  two DependencyLoader operations needs and update.  The interpreter is
  fuel-indexed (each mutual call consumes one unit); the source terminates
  because loadedKeys only grows, so every run of the source corresponds to a
  sufficiently fuelled run here.
* The external delta primitive (jsondiffpatch diff / patch / reverse plus
  lodash cloneDeep) is an abstract structure; cloneDeep is the identity in a
  pure model.
* Console diagnostics (console.warn / console.error) are side channels with no
  effect on the returned value, so they do not appear in the model.
-/

set_option maxHeartbeats 1000000

/-- A JavaScript runtime value as used by the backup engine: undefined,
numbers, strings, arrays and plain objects (association lists of properties in
insertion order). -/
inductive Value where
  | undef : Value
  | num : Int → Value
  | str : String → Value
  | arr : List Value → Value
  | obj : List (String × Value) → Value
deriving Repr

/-- A plain JavaScript object: own enumerable properties in insertion order. -/
abbrev Obj := List (String × Value)

/-- Property read: the first binding of the key, undefined when absent
(JavaScript objects have unique keys, so first binding is the binding). -/
def objGet (o : Obj) (k : String) : Value :=
  match o with
  | [] => .undef
  | (k', v) :: rest => if k' = k then v else objGet rest k

/-- Whether the object has an own property named k. -/
def objHasKey (o : Obj) (k : String) : Bool :=
  match o with
  | [] => false
  | (k', _) :: rest => if k' = k then true else objHasKey rest k

/-- Property assignment: replace in place when the key exists, append
otherwise — JavaScript's insertion-order semantics. -/
def objSet (o : Obj) (k : String) (v : Value) : Obj :=
  match o with
  | [] => [(k, v)]
  | (k', v') :: rest => if k' = k then (k, v) :: rest else (k', v') :: objSet rest k v

/-- The object spread of b onto a: assign every own property of b, in order,
onto a copy of a.  Properties whose value is undefined are copied like any
other, exactly as in JavaScript. -/
def spreadObjs (a b : Obj) : Obj :=
  b.foldl (fun acc kv => objSet acc kv.1 kv.2) a

/-- Property access on an arbitrary value: objects look the key up; for the
string keys the engine uses, every other value yields undefined. -/
def vGet (v : Value) (k : String) : Value :=
  match v with
  | .obj fs => objGet fs k
  | _ => (.undef)

/-- The own enumerable properties a value contributes under object spread:
objects contribute their fields, arrays and strings their index properties,
numbers and undefined nothing — JavaScript's spread semantics. -/
def toFields (v : Value) : Obj :=
  match v with
  | .obj fs => fs
  | .arr xs => xs.enum.map (fun iv => (toString iv.1, iv.2))
  | .str s => s.data.enum.map (fun ic => (toString ic.1, Value.str (String.singleton ic.2)))
  | _ => []

/-! Basic lemmas about the object operations. -/

theorem objGet_objSet_self (o : Obj) (k : String) (v : Value) :
    objGet (objSet o k v) k = v := by
  induction o with
  | nil => simp [objSet, objGet]
  | cons kv rest ih =>
    by_cases h : kv.1 = k
    · simp [objSet, objGet, h]
    · simp [objSet, objGet, h, ih]

theorem objGet_objSet_ne (o : Obj) (k k' : String) (v : Value) (h : k ≠ k') :
    objGet (objSet o k v) k' = objGet o k' := by
  induction o with
  | nil => simp [objSet, objGet, h]
  | cons kv rest ih =>
    by_cases hk : kv.1 = k
    · simp [objSet, objGet, hk, h]
    · simp only [objSet, if_neg hk]
      by_cases hk' : kv.1 = k'
      · simp [objGet, hk']
      · simp [objGet, hk', ih]

theorem objHasKey_objSet_self (o : Obj) (k : String) (v : Value) :
    objHasKey (objSet o k v) k = true := by
  induction o with
  | nil => simp [objSet, objHasKey]
  | cons kv rest ih =>
    by_cases h : kv.1 = k
    · simp [objSet, objHasKey, h]
    · simp [objSet, objHasKey, h, ih]

theorem objHasKey_objSet_ne (o : Obj) (k k' : String) (v : Value) (h : k ≠ k') :
    objHasKey (objSet o k v) k' = objHasKey o k' := by
  induction o with
  | nil => simp [objSet, objHasKey, h]
  | cons kv rest ih =>
    by_cases hk : kv.1 = k
    · subst hk
      simp [objSet, objHasKey, h]
    · simp only [objSet, if_neg hk]
      by_cases hk' : kv.1 = k'
      · simp [objHasKey, hk']
      · simp [objHasKey, hk', ih]

theorem objHasKey_false_objGet (o : Obj) (k : String) (h : objHasKey o k = false) :
    objGet o k = .undef := by
  induction o with
  | nil => simp [objGet]
  | cons kv rest ih =>
    by_cases hk : kv.1 = k
    · simp [objHasKey, hk] at h
    · simp only [objHasKey, if_neg hk] at h
      simp [objGet, hk, ih h]

theorem objHasKey_iff_mem (o : Obj) (k : String) :
    objHasKey o k = true ↔ k ∈ o.map Prod.fst := by
  induction o with
  | nil => simp [objHasKey]
  | cons kv rest ih =>
    by_cases hk : kv.1 = k
    · simp [objHasKey, hk]
    · simp [objHasKey, hk, ih, Ne.symm hk]

/-- Reading a key through a spread of an object with pairwise-distinct keys
(every JavaScript object): the right operand wins when it has the key,
otherwise the left operand's value shows through. -/
theorem objGet_spreadObjs (a b : Obj) (k : String)
    (hnd : (b.map Prod.fst).Nodup) :
    objGet (spreadObjs a b) k =
      if objHasKey b k then objGet b k else objGet a k := by
  induction b generalizing a with
  | nil => simp [spreadObjs, objHasKey]
  | cons kv rest ih =>
    have hstep : spreadObjs a (kv :: rest) = spreadObjs (objSet a kv.1 kv.2) rest := by
      simp [spreadObjs, List.foldl_cons]
    rw [hstep]
    simp only [List.map_cons, List.nodup_cons] at hnd
    by_cases hk : kv.1 = k
    · subst hk
      have hrest : objHasKey rest kv.1 = false := by
        by_contra h
        exact hnd.1 ((objHasKey_iff_mem rest kv.1).mp (by simpa using h))
      simp [ih _ hnd.2, hrest, objHasKey, objGet, objGet_objSet_self]
    · have : objHasKey (kv :: rest) k = objHasKey rest k := by
        simp [objHasKey, hk]
      rw [ih _ hnd.2, this]
      by_cases hrest : objHasKey rest k
      · simp [hrest, objGet, hk]
      · simp [hrest, objGet, hk, objGet_objSet_ne _ _ _ _ hk]

theorem objHasKey_spreadObjs (a b : Obj) (k : String) :
    objHasKey (spreadObjs a b) k = (objHasKey a k || objHasKey b k) := by
  induction b generalizing a with
  | nil => simp [spreadObjs, objHasKey]
  | cons kv rest ih =>
    have hstep : spreadObjs a (kv :: rest) = spreadObjs (objSet a kv.1 kv.2) rest := by
      simp [spreadObjs, List.foldl_cons]
    rw [hstep, ih]
    by_cases hk : kv.1 = k
    · subst hk
      simp [objHasKey_objSet_self, objHasKey]
    · simp [objHasKey_objSet_ne _ _ _ _ hk, objHasKey, hk]

/-! ## The dependency-loader backup module

Embedding of the backup engine variant whose load functions receive a
DependencyLoader (createBackup, LoadKey, loadBackup and the needs / update
operations of the dependency loader). -/

namespace DepBackup

/-- A slice load step as a program over the two DependencyLoader effects:
finish with a value, ask needs for a sibling key and continue with the value
it returns, or ask update to patch a sibling key and continue. -/
inductive LoadProg where
  | ret : Value → LoadProg
  | needs : String → (Value → LoadProg) → LoadProg
  | update : String → Value → LoadProg → LoadProg

mutual
/-- A codec-tree node: either a slice codec (a save / load pair, the load
returning a LoadProg) or a nested state backup interface. -/
inductive BNode where
  | sliceB (save : Value → Value) (load : Value → LoadProg) : BNode
  | stateB (children : BChildren) : BNode

/-- The keyed entries of a state backup interface, in declaration order.  A
missingB entry is a key whose loader is falsy (skipped by the engine). -/
inductive BChildren where
  | nilB : BChildren
  | missingB (key : String) (rest : BChildren) : BChildren
  | consB (key : String) (node : BNode) (rest : BChildren) : BChildren
end

/-- Look a key up in a backup interface: none when the key is absent, some
none when the key maps to a falsy loader, some (some n) when it has one. -/
def lookupB : BChildren → String → Option (Option BNode)
  | .nilB, _ => none
  | .missingB k rest, key => if k = key then some none else lookupB rest key
  | .consB k n rest, key => if k = key then some (some n) else lookupB rest key

/-- The keys a backup interface declares, in order. -/
def keysB : BChildren → List String
  | .nilB => []
  | .missingB k rest => k :: keysB rest
  | .consB k _ rest => k :: keysB rest

/-- createBackup: iterate the interface's own keys in declaration order;
store save of the state's slice at a slice codec, recurse at a nested
interface, skip falsy loaders. -/
def createBackupAcc (state : Value) : BChildren → Obj → Obj
  | .nilB, stored => stored
  | .missingB _ rest, stored => createBackupAcc state rest stored
  | .consB key (.sliceB save _) rest, stored =>
      createBackupAcc state rest (objSet stored key (save (vGet state key)))
  | .consB key (.stateB sub) rest, stored =>
      createBackupAcc state rest
        (objSet stored key (.obj (createBackupAcc (vGet state key) sub [])))

/-- createBackup of the dependency-loader module. -/
def createBackup (state : Value) (c : BChildren) : Obj :=
  createBackupAcc state c []

/-- The per-call mutable state of one loadBackup call: the loaded
accumulator, the loadedKeys set and the loadQueue set (both in insertion
order, as JavaScript Sets iterate). -/
structure LoadSt where
  loaded : Obj
  loadedKeys : List String
  loadQueue : List String
deriving Repr

/-- The two fatal errors loadBackup can throw, plus exhaustion of the fuel
that stands in for the source's implicit termination argument. -/
inductive LoadErr where
  | doubleLoad (key : String)
  | circular (cycle : List String)
  | outOfFuel
deriving Repr

mutual
/-- LoadKey: mark the key loaded (throwing on a double load), skip absent or
falsy loaders and already-populated slots, detect a queue re-entry as a
circular dependency, then run the slice's load program or recurse into a
nested loadBackup, record the result in loaded and pop the queue. -/
def LoadKey (fuel : Nat) (state : Value) (c : BChildren) (store : Value)
    (key : String) (ls : LoadSt) : Except LoadErr LoadSt :=
  match fuel with
  | 0 => .error .outOfFuel
  | fuel + 1 =>
    if ls.loadedKeys.contains key then .error (.doubleLoad key) else
    let ls := { ls with loadedKeys := ls.loadedKeys ++ [key] }
    match lookupB c key with
    | none => .ok ls
    | some none => .ok ls
    | some (some node) =>
      match objGet ls.loaded key with
      | .undef =>
        if ls.loadQueue.contains key then
          .error (.circular (ls.loadQueue ++ [key]))
        else
          let ls := { ls with loadQueue := ls.loadQueue ++ [key] }
          match node with
          | .sliceB _ load =>
            match runProg fuel state c store (load (vGet store key)) ls with
            | .error e => .error e
            | .ok (v, ls2) =>
              .ok { ls2 with
                      loaded := objSet ls2.loaded key v,
                      loadQueue := ls2.loadQueue.erase key }
          | .stateB sub =>
            let innerState :=
              match vGet state key with
              | .undef => Value.obj []
              | v => v
            match loadBackup fuel innerState sub (vGet store key) with
            | .error e => .error e
            | .ok result =>
              .ok { ls with
                      loaded := objSet ls.loaded key (.obj result),
                      loadQueue := ls.loadQueue.erase key }
      | _ => .ok ls
termination_by structural fuel

/-- Run a load program: needs pulls the sibling through LoadKey when it is
not in loadedKeys and hands back its loaded value; update ensures the sibling
is loaded the same way, then overwrites the loaded value when the patch is a
number, string or array and shallow-merges it otherwise. -/
def runProg (fuel : Nat) (state : Value) (c : BChildren) (store : Value)
    (p : LoadProg) (ls : LoadSt) : Except LoadErr (Value × LoadSt) :=
  match fuel with
  | 0 => .error .outOfFuel
  | fuel + 1 =>
    match p with
    | .ret v => .ok (v, ls)
    | .needs key cont =>
      match (if ls.loadedKeys.contains key then Except.ok ls
             else LoadKey fuel state c store key ls) with
      | .error e => .error e
      | .ok ls2 => runProg fuel state c store (cont (objGet ls2.loaded key)) ls2
    | .update key patch rest =>
      match (if ls.loadedKeys.contains key then Except.ok ls
             else LoadKey fuel state c store key ls) with
      | .error e => .error e
      | .ok ls2 =>
        let newV : Value :=
          match patch with
          | .num n => .num n
          | .str s => .str s
          | .arr xs => .arr xs
          | other => .obj (spreadObjs (toFields (objGet ls2.loaded key)) (toFields other))
        runProg fuel state c store rest { ls2 with loaded := objSet ls2.loaded key newV }
termination_by structural fuel

/-- The key iteration of loadBackup: every declared key not already in
loadedKeys goes through LoadKey. -/
def loadLoop (fuel : Nat) (state : Value) (c : BChildren) (store : Value)
    (rem : BChildren) (ls : LoadSt) : Except LoadErr LoadSt :=
  match fuel with
  | 0 => .error .outOfFuel
  | fuel + 1 =>
    match rem with
    | .nilB => .ok ls
    | .missingB key rest =>
      match (if ls.loadedKeys.contains key then Except.ok ls
             else LoadKey fuel state c store key ls) with
      | .error e => .error e
      | .ok ls2 => loadLoop fuel state c store rest ls2
    | .consB key _ rest =>
      match (if ls.loadedKeys.contains key then Except.ok ls
             else LoadKey fuel state c store key ls) with
      | .error e => .error e
      | .ok ls2 => loadLoop fuel state c store rest ls2
termination_by structural fuel

/-- loadBackup: fresh per-call state, iterate the declared keys, then combine
with the existing state by object spread. -/
def loadBackup (fuel : Nat) (state : Value) (c : BChildren) (store : Value) :
    Except LoadErr Obj :=
  match fuel with
  | 0 => .error .outOfFuel
  | fuel + 1 =>
    match loadLoop fuel state c store c ⟨[], [], []⟩ with
    | .error e => .error e
    | .ok ls => .ok (spreadObjs (toFields state) ls.loaded)
termination_by structural fuel
end

end DepBackup

/-! ## The plain backup module

Embedding of src/backup.ts, the variant without a dependency loader, which is
the one the undoable reducer imports: load functions are plain functions of
the stored value. -/

namespace SimpleBackup

mutual
/-- A codec-tree node of the plain module: a save / load pair of plain
functions, or a nested state backup interface. -/
inductive SNode where
  | sliceS (save : Value → Value) (load : Value → Value) : SNode
  | stateS (children : SChildren) : SNode

/-- The keyed entries of a plain state backup interface, in declaration
order; missingS entries carry a falsy loader and are skipped. -/
inductive SChildren where
  | nilS : SChildren
  | missingS (key : String) (rest : SChildren) : SChildren
  | consS (key : String) (node : SNode) (rest : SChildren) : SChildren
end

/-- Look a key up in a plain backup interface. -/
def lookupS : SChildren → String → Option (Option SNode)
  | .nilS, _ => none
  | .missingS k rest, key => if k = key then some none else lookupS rest key
  | .consS k n rest, key => if k = key then some (some n) else lookupS rest key

/-- The keys a plain backup interface declares, in order. -/
def keysS : SChildren → List String
  | .nilS => []
  | .missingS k rest => k :: keysS rest
  | .consS k _ rest => k :: keysS rest

/-- createBackup of the plain module: store save of each covered slice in
declaration order, recursing at nested interfaces. -/
def createBackupAcc (state : Value) : SChildren → Obj → Obj
  | .nilS, stored => stored
  | .missingS _ rest, stored => createBackupAcc state rest stored
  | .consS key (.sliceS save _) rest, stored =>
      createBackupAcc state rest (objSet stored key (save (vGet state key)))
  | .consS key (.stateS sub) rest, stored =>
      createBackupAcc state rest
        (objSet stored key (.obj (createBackupAcc (vGet state key) sub [])))

/-- createBackup of the plain module. -/
def createBackup (state : Value) (c : SChildren) : Obj :=
  createBackupAcc state c []

/-- The loaded accumulator of the plain loadBackup: each covered key gets
load of its stored value, nested interfaces recurse with the state's slice
(or an empty object) as base. -/
def loadAcc (state store : Value) : SChildren → Obj → Obj
  | .nilS, loaded => loaded
  | .missingS _ rest, loaded => loadAcc state store rest loaded
  | .consS key (.sliceS _ load) rest, loaded =>
      loadAcc state store rest (objSet loaded key (load (vGet store key)))
  | .consS key (.stateS sub) rest, loaded =>
      let innerState :=
        match vGet state key with
        | .undef => Value.obj []
        | v => v
      loadAcc state store rest
        (objSet loaded key (.obj (spreadObjs (toFields innerState)
          (loadAcc innerState (vGet store key) sub []))))

/-- loadBackup of the plain module: build the loaded accumulator over the
declared keys, then combine with the existing state by object spread. -/
def loadBackup (state : Value) (c : SChildren) (store : Value) : Obj :=
  spreadObjs (toFields state) (loadAcc state store c [])

end SimpleBackup

/-! ## The diff history and the undoable orchestrator

Embedding of src/diff.ts and src/undo.ts.  The external delta algebra
(jsondiffpatch) is an abstract structure DiffPrim; deep cloning is the
identity in this pure model.  The undoable envelope keeps the wrapped
reducer's own state in the live field and the three bookkeeping fields
separately; the source stores them as three reserved keys of the same record
and strips them before calling the wrapped reducer, which is the same thing
as long as the backup interface does not cover the reserved keys.  Actions
are represented by their type tag, the only part this reducer inspects. -/

/-- The external delta primitive: diff, patch and reverse over opaque deltas.
The source's cloneDeep guards mutation only, so it is the identity here. -/
structure DiffPrim (Δ : Type) where
  diff : Obj → Obj → Δ
  patch : Obj → Δ → Obj
  reverse : Δ → Δ

/-- createHistory delegates to diff with the argument order diff next prev. -/
def createHistory (prim : DiffPrim Δ) (next prev : Obj) : Δ :=
  prim.diff next prev

/-- restore clones the current state and applies the delta. -/
def restore (prim : DiffPrim Δ) (current : Obj) (record : Δ) : Obj :=
  prim.patch current record

/-- restoreWithRewind applies the delta and also returns its inverse. -/
def restoreWithRewind (prim : DiffPrim Δ) (current : Obj) (record : Δ) : Obj × Δ :=
  (prim.patch current record, prim.reverse record)

/-- The undoable envelope: the wrapped state plus history (newest first),
the cached present moment and future (most recently undone first). -/
structure Envelope (Δ : Type) where
  live : Obj
  history : List Δ
  present : Option Obj
  future : List Δ

/-- The moment-marker substring undoable action types contain. -/
def undoableMarker : String := "/undoable/"

/-- The exact type of the undo action. -/
def undoType : String := "UndoRedo.undo"

/-- The exact type of the redo action. -/
def redoType : String := "UndoRedo.redo"

/-- The exact type of the apply action. -/
def applyType : String := "UndoRedo.apply"

/-- Whether pat is a prefix of hay, over character lists. -/
def charsPrefix : List Char → List Char → Bool
  | [], _ => true
  | _ :: _, [] => false
  | p :: ps, h :: hs => p == h && charsPrefix ps hs

/-- Whether pat occurs contiguously inside hay, over character lists. -/
def charsContain (hay pat : List Char) : Bool :=
  match hay with
  | [] => pat.isEmpty
  | _ :: rest => charsPrefix pat hay || charsContain rest pat

/-- Substring containment, as String.prototype.indexOf !== -1 computes it. -/
def strContains (s pat : String) : Bool :=
  charsContain s.data pat.data

/-- saveMoment: back the live state up as the new present; when an old
present existed, prepend its diff against the new present to the old history
truncated to the limit; clear future. -/
def saveMoment (prim : DiffPrim Δ) (c : SimpleBackup.SChildren)
    (historyLimit : Option Nat) (state : Envelope Δ) : Envelope Δ :=
  let present := SimpleBackup.createBackup (.obj state.live) c
  let kept :=
    match historyLimit with
    | none => state.history
    | some l => state.history.take l
  let history :=
    (match state.present with
     | none => []
     | some p => [createHistory prim present p]) ++ kept
  { state with present := some present, history := history, future := [] }

/-- updatePresentMoment: recompute present from the live state; with no
history just replace it and clear both lists, otherwise re-express the most
recent history entry against the new present and clear future.  The source
feeds state.present straight to the external patch; before any moment that
value is undefined, a corner unreachable through the reducer, which the model
defaults to the empty object. -/
def updatePresentMoment (prim : DiffPrim Δ) (c : SimpleBackup.SChildren)
    (state : Envelope Δ) : Envelope Δ :=
  let present := SimpleBackup.createBackup (.obj state.live) c
  match state.history with
  | [] => { state with present := some present, history := [], future := [] }
  | d :: rest =>
    let lastHistory := restore prim (state.present.getD []) d
    { state with
        present := some present,
        history := createHistory prim present lastHistory :: rest,
        future := [] }

/-- restoreMoment: walk distance steps (history when positive, future when
negative) from the present with restoreWithRewind, reload the live state from
the stepped present, move the consumed deltas' reverses onto the opposite
list.  A zero distance, a missing present and a distance past the list's
length all return the envelope unchanged (the source only logs). -/
def restoreMoment (prim : DiffPrim Δ) (c : SimpleBackup.SChildren)
    (state : Envelope Δ) (distance : Int) : Envelope Δ :=
  if distance = 0 then state
  else
    match state.present with
    | none => state
    | some p0 =>
      let list := if distance > 0 then state.history else state.future
      let abs := distance.natAbs
      match list[abs - 1]? with
      | none => state
      | some _ =>
        let stepped :=
          (list.take abs).foldl
            (fun (acc : Obj × List Δ) d =>
              let r := restoreWithRewind prim acc.1 d
              (r.1, acc.2 ++ [r.2]))
            (p0, [])
        let present := stepped.1
        let rewinds := stepped.2
        let newLive := SimpleBackup.loadBackup (.obj state.live) c (.obj present)
        if distance > 0 then
          { live := newLive,
            history := state.history.drop abs,
            present := some present,
            future := rewinds.reverse ++ state.future }
        else
          { live := newLive,
            history := rewinds.reverse ++ state.history,
            present := some present,
            future := state.future.drop abs }

/-- Run the wrapped reducer on the envelope-stripped state and migrate the
three bookkeeping fields from the previous envelope (empty when there was
none). -/
def migrateStep (reducer : Option Obj → String → Obj)
    (state : Option (Envelope Δ)) (action : String) : Envelope Δ :=
  { live := reducer (state.map (·.live)) action
    history := (state.map (·.history)).getD []
    present := (state.map (·.present)).getD none
    future := (state.map (·.future)).getD [] }

/-- One call of the reducer createUndoableReducer builds: run the wrapped
reducer on the envelope-stripped state, migrate the bookkeeping fields, save
a moment on undoable actions and on the initialisation call, then dispatch
the three sentinel actions.  The source detects initialisation as a missing
or empty state object; prior envelopes are always populated records, so in
the typed model initialisation is exactly the missing case. -/
def undoableReducer (prim : DiffPrim Δ) (reducer : Option Obj → String → Obj)
    (c : SimpleBackup.SChildren) (historyLimit : Option Nat)
    (state : Option (Envelope Δ)) (action : String) : Envelope Δ :=
  let st :=
    if strContains action undoableMarker || state.isNone then
      saveMoment prim c historyLimit (migrateStep reducer state action)
    else migrateStep reducer state action
  if action = undoType then restoreMoment prim c st 1
  else if action = redoType then restoreMoment prim c st (-1)
  else if action = applyType then updatePresentMoment prim c st
  else st

/-- Fold the undoable reducer over a list of action types, starting from no
state, as a store dispatching those actions in order would. -/
def runUndoable (prim : DiffPrim Δ) (reducer : Option Obj → String → Obj)
    (c : SimpleBackup.SChildren) (historyLimit : Option Nat)
    (actions : List String) : Option (Envelope Δ) :=
  actions.foldl (fun s a => some (undoableReducer prim reducer c historyLimit s a)) none

/-! ## Concrete fixtures used by the claim theorems and witnesses -/

/-- A concrete delta algebra satisfying the inverse laws: a delta is the pair
of its endpoints, patch projects the target, reverse swaps. -/
def pairDelta : DiffPrim (Obj × Obj) :=
  { diff := fun a b => (a, b)
    patch := fun _ d => d.2
    reverse := fun d => (d.2, d.1) }

/-- A one-key reducer for concrete runs of the undoable reducer. -/
def constReducer : Option Obj → String → Obj := fun _ _ => [("x", .num 1)]

/-- The matching one-key identity backup interface. -/
def xIface : SimpleBackup.SChildren :=
  .consS "x" (.sliceS (fun v => v) (fun v => v)) .nilS

/-- A slice codec whose load only pulls the named sibling through needs and
stores what it got. -/
def needsOther (other : String) : DepBackup.BNode :=
  .sliceB (fun s => s) (fun _ => .needs other (fun v => .ret v))

/-- Two sibling codecs whose loads call needs on each other: the canonical
circular-dependency configuration. -/
def mutualNeedsTree : DepBackup.BChildren :=
  .consB "a" (needsOther "b") (.consB "b" (needsOther "a") .nilB)

/-- C1: with two sibling codecs whose load functions call needs on each other,
loadBackup does not fail with the circular-dependency error the claim
requires.  The key is added to loadedKeys before its load runs and needs
consults loadedKeys, so the in-progress sibling is read back as undefined and
the call terminates normally with both slices loaded as undefined; the
circular-dependency throw (which tests loadQueue) is unreachable. -/
theorem C1_mutual_needs_terminates_without_error :
    DepBackup.loadBackup 10 (.obj []) mutualNeedsTree
        (.obj [("a", .str "sa"), ("b", .str "sb")])
      = .ok [("b", .undef), ("a", .undef)] := rfl

/-- C2 counterexample: with a history limit of 2, seven moment-recording
actions leave history at length 3, exceeding the limit: saveMoment truncates
the old history to the limit first and then prepends the new delta. -/
theorem C2_history_limit_exceeded :
    ((runUndoable pairDelta constReducer xIface (some 2)
        (List.replicate 7 "m/undoable/a")).map (fun e => e.history.length) = some 3)
      ∧ ¬ (3 ≤ 2) :=
  ⟨rfl, by decide⟩


/-! ## History-length accounting (claim C2) -/

theorem rewind_fold_snd_length {Δ : Type} (prim : DiffPrim Δ) (l : List Δ)
    (p0 : Obj) (acc : List Δ) :
    ((l.foldl
        (fun (acc : Obj × List Δ) d =>
          let r := restoreWithRewind prim acc.1 d
          (r.1, acc.2 ++ [r.2]))
        (p0, acc)).2).length = acc.length + l.length := by
  induction l generalizing p0 acc with
  | nil => simp
  | cons d rest ih => simp [ih]; omega

theorem restoreMoment_sum_le {Δ : Type} (prim : DiffPrim Δ)
    (c : SimpleBackup.SChildren) (st : Envelope Δ) (d : Int) :
    (restoreMoment prim c st d).history.length + (restoreMoment prim c st d).future.length
      ≤ st.history.length + st.future.length := by
  unfold restoreMoment
  by_cases h0 : d = 0
  · simp [h0]
  · simp only [if_neg h0]
    match hp : st.present with
    | none => simp
    | some p0 =>
      by_cases hd : d > 0
      · simp only [if_pos hd]
        match hidx : st.history[d.natAbs - 1]? with
        | none => simp
        | some dd =>
          have hlt : d.natAbs - 1 < st.history.length := (List.getElem?_eq_some.mp hidx).1
          have h1 : 1 ≤ d.natAbs := by omega
          simp only [rewind_fold_snd_length, List.length_append, List.length_reverse,
            List.length_drop, List.length_take, List.length_nil, Envelope.mk.injEq]
          omega
      · simp only [if_neg hd]
        match hidx : st.future[d.natAbs - 1]? with
        | none => simp
        | some dd =>
          have hlt : d.natAbs - 1 < st.future.length := (List.getElem?_eq_some.mp hidx).1
          have h1 : 1 ≤ d.natAbs := by omega
          simp only [rewind_fold_snd_length, List.length_append, List.length_reverse,
            List.length_drop, List.length_take, List.length_nil, Envelope.mk.injEq]
          omega

theorem saveMoment_future {Δ : Type} (prim : DiffPrim Δ)
    (c : SimpleBackup.SChildren) (l : Option Nat) (st : Envelope Δ) :
    (saveMoment prim c l st).future = [] := rfl

theorem saveMoment_history_le {Δ : Type} (prim : DiffPrim Δ)
    (c : SimpleBackup.SChildren) (L : Nat) (st : Envelope Δ) :
    (saveMoment prim c (some L) st).history.length ≤ L + 1 := by
  unfold saveMoment
  match st.present with
  | none => simp [List.length_take]
  | some p => simp [List.length_take]

theorem updatePresentMoment_future {Δ : Type} (prim : DiffPrim Δ)
    (c : SimpleBackup.SChildren) (st : Envelope Δ) :
    (updatePresentMoment prim c st).future = [] := by
  unfold updatePresentMoment
  match st.history with
  | [] => rfl
  | d :: rest => rfl

theorem updatePresentMoment_history_le {Δ : Type} (prim : DiffPrim Δ)
    (c : SimpleBackup.SChildren) (st : Envelope Δ) :
    (updatePresentMoment prim c st).history.length ≤ st.history.length := by
  unfold updatePresentMoment
  match st.history with
  | [] => simp
  | d :: rest => simp

theorem undoableReducer_sum_le {Δ : Type} (prim : DiffPrim Δ)
    (reducer : Option Obj → String → Obj) (c : SimpleBackup.SChildren) (L : Nat)
    (s : Option (Envelope Δ)) (a : String)
    (hs : ∀ e, s = some e → e.history.length + e.future.length ≤ L + 1) :
    (undoableReducer prim reducer c (some L) s a).history.length
      + (undoableReducer prim reducer c (some L) s a).future.length ≤ L + 1 := by
  have hsum0 : (migrateStep (Δ := Δ) reducer s a).history.length
      + (migrateStep (Δ := Δ) reducer s a).future.length ≤ L + 1 := by
    cases s with
    | none => simp [migrateStep]
    | some e => simpa [migrateStep] using hs e rfl
  unfold undoableReducer
  simp only []
  set st1 :=
    if strContains a undoableMarker || s.isNone then
      saveMoment prim c (some L) (migrateStep reducer s a)
    else migrateStep reducer s a with hst1
  have hsum1 : st1.history.length + st1.future.length ≤ L + 1 := by
    rw [hst1]
    by_cases hc : (strContains a undoableMarker || s.isNone) = true
    · rw [if_pos hc, saveMoment_future]
      simpa using saveMoment_history_le prim c L (migrateStep reducer s a)
    · rw [if_neg hc]
      exact hsum0
  by_cases hu : a = undoType
  · simp only [if_pos hu]
    exact le_trans (restoreMoment_sum_le prim c st1 1) hsum1
  · simp only [if_neg hu]
    by_cases hr : a = redoType
    · simp only [if_pos hr]
      exact le_trans (restoreMoment_sum_le prim c st1 (-1)) hsum1
    · simp only [if_neg hr]
      by_cases ha : a = applyType
      · simp only [if_pos ha]
        rw [updatePresentMoment_future]
        have := updatePresentMoment_history_le prim c st1
        simp only [List.length_nil, Nat.add_zero]
        omega
      · simp only [if_neg ha]
        exact hsum1

theorem runUndoable_sum_le {Δ : Type} (prim : DiffPrim Δ)
    (reducer : Option Obj → String → Obj) (c : SimpleBackup.SChildren) (L : Nat)
    (acts : List String) (s : Option (Envelope Δ))
    (hs : ∀ e, s = some e → e.history.length + e.future.length ≤ L + 1) :
    ∀ e, acts.foldl (fun s a => some (undoableReducer prim reducer c (some L) s a)) s = some e →
      e.history.length + e.future.length ≤ L + 1 := by
  induction acts generalizing s with
  | nil =>
    intro e he
    exact hs e he
  | cons a rest ih =>
    intro e he
    refine ih (some (undoableReducer prim reducer c (some L) s a)) ?_ e (by simpa using he)
    intro e' he'
    cases he'
    exact undoableReducer_sum_le prim reducer c L s a hs

/-- C2 (amended): with a configured history limit L, the history of any
envelope the undoable reducer produces never has length greater than L + 1;
the claim's bound L is exceeded by exactly one because saveMoment truncates
the previous history to L entries and then prepends the new delta. -/
theorem C2_history_bound {Δ : Type} (prim : DiffPrim Δ)
    (reducer : Option Obj → String → Obj) (c : SimpleBackup.SChildren) (L : Nat)
    (acts : List String) (e : Envelope Δ)
    (h : runUndoable prim reducer c (some L) acts = some e) :
    e.history.length ≤ L + 1 := by
  have := runUndoable_sum_le prim reducer c L acts none (by intro e he; cases he) e h
  omega

/-- The envelope the seven-moment limited run produces. -/
def c2Env : Envelope (Obj × Obj) :=
  (runUndoable pairDelta constReducer xIface (some 2)
    (List.replicate 7 "m/undoable/a")).getD ⟨[], [], none, []⟩

/-- Witness for C2_history_bound at the concrete seven-moment run. -/
theorem C2_history_bound_witness :
    runUndoable pairDelta constReducer xIface (some 2)
        (List.replicate 7 "m/undoable/a") = some c2Env
      ∧ c2Env.history.length ≤ 2 + 1 :=
  ⟨rfl, C2_history_bound pairDelta constReducer xIface 2
    (List.replicate 7 "m/undoable/a") c2Env rfl⟩

/-! ## Rewind edge cases (claim C6) -/

theorem restoreMoment_noop {Δ : Type} (prim : DiffPrim Δ)
    (c : SimpleBackup.SChildren) (st : Envelope Δ) (d : Int)
    (h : d = 0 ∨ (0 < d ∧ st.history.length < d.natAbs)
      ∨ (d < 0 ∧ st.future.length < d.natAbs)) :
    restoreMoment prim c st d = st := by
  unfold restoreMoment
  rcases h with h0 | ⟨hd, hl⟩ | ⟨hd, hl⟩
  · simp [h0]
  · have h0 : ¬ (d = 0) := by omega
    rw [if_neg h0]
    match hp : st.present with
    | none => rfl
    | some p0 =>
      have hnone : st.history[d.natAbs - 1]? = none := by
        apply List.getElem?_eq_none
        omega
      simp [hd, hnone]
  · have h0 : ¬ (d = 0) := by omega
    have hd' : ¬ (d > 0) := by omega
    rw [if_neg h0]
    match hp : st.present with
    | none => rfl
    | some p0 =>
      have hnone : st.future[d.natAbs - 1]? = none := by
        apply List.getElem?_eq_none
        omega
      simp [hd', hnone]

/-- C6: a rewind of distance zero, and a rewind whose magnitude exceeds the
source list's length (history for undo, future for redo), both return the
input envelope unchanged rather than failing; the source reports these
conditions to the console only, which has no effect on the returned value. -/
theorem C6_rewind_out_of_range_noop {Δ : Type} (prim : DiffPrim Δ)
    (c : SimpleBackup.SChildren) (st : Envelope Δ) (d : Int)
    (h : d = 0 ∨ (0 < d ∧ st.history.length < d.natAbs)
      ∨ (d < 0 ∧ st.future.length < d.natAbs)) :
    restoreMoment prim c st d = st :=
  restoreMoment_noop prim c st d h

/-- Witness for C6_rewind_out_of_range_noop: distance 2 against a single-entry
history is a no-op. -/
theorem C6_rewind_out_of_range_noop_witness :
    (((2 : Int) = 0 ∨ (0 < (2 : Int) ∧ ([([], [])] : List (Obj × Obj)).length < (2 : Int).natAbs)
        ∨ ((2 : Int) < 0 ∧ ([] : List (Obj × Obj)).length < (2 : Int).natAbs))
      ∧ restoreMoment pairDelta xIface ⟨[("x", .num 1)], [([], [])], some [], []⟩ 2
          = ⟨[("x", .num 1)], [([], [])], some [], []⟩) :=
  ⟨Or.inr (Or.inl (by constructor <;> decide)),
   C6_rewind_out_of_range_noop pairDelta xIface _ 2
     (Or.inr (Or.inl (by constructor <;> decide)))⟩

/-! ## The apply action (claim C7) and action classification (claim C5) -/

theorem strContains_undo_false : strContains undoType undoableMarker = false := rfl

theorem strContains_redo_false : strContains redoType undoableMarker = false := rfl

theorem strContains_apply_false : strContains applyType undoableMarker = false := rfl

/-- C7: the apply action recomputes present as the backup of the live state
the wrapped reducer just produced; with empty history the result carries that
present with history and future both empty; with history d :: rest and an old
present p0, the head entry is replaced by the delta between the new present
and d applied forward to p0, the remaining entries are unchanged, and future
is cleared. -/
theorem C7_apply_resync {Δ : Type} (prim : DiffPrim Δ)
    (reducer : Option Obj → String → Obj) (c : SimpleBackup.SChildren)
    (limit : Option Nat) (e : Envelope Δ) :
    (e.history = [] →
      undoableReducer prim reducer c limit (some e) applyType =
        ⟨reducer (some e.live) applyType, [],
         some (SimpleBackup.createBackup (.obj (reducer (some e.live) applyType)) c), []⟩)
    ∧ (∀ d rest p0, e.history = d :: rest → e.present = some p0 →
        undoableReducer prim reducer c limit (some e) applyType =
          ⟨reducer (some e.live) applyType,
           createHistory prim
             (SimpleBackup.createBackup (.obj (reducer (some e.live) applyType)) c)
             (restore prim p0 d) :: rest,
           some (SimpleBackup.createBackup (.obj (reducer (some e.live) applyType)) c),
           []⟩) := by
  have hstep : undoableReducer prim reducer c limit (some e) applyType =
      updatePresentMoment prim c (migrateStep reducer (some e) applyType) := by
    unfold undoableReducer
    simp [strContains_apply_false, show applyType ≠ undoType from by decide,
      show applyType ≠ redoType from by decide]
  constructor
  · intro hh
    rw [hstep]
    unfold updatePresentMoment migrateStep
    simp [hh]
  · intro d rest p0 hh hp
    rw [hstep]
    unfold updatePresentMoment migrateStep
    simp [hh, hp]

/-- Witness for C7_apply_resync: both branches applied at concrete
envelopes, the empty-history one and a one-entry history with a present. -/
theorem C7_apply_resync_witness :
    (undoableReducer pairDelta constReducer xIface none
        (some ⟨[("x", .num 5)], [], some [("x", .num 5)], []⟩) applyType =
      ⟨[("x", .num 1)], [], some [("x", .num 1)], []⟩)
    ∧ (undoableReducer pairDelta constReducer xIface none
        (some ⟨[("x", .num 5)], [([("x", .num 9)], [("x", .num 5)])],
               some [("x", .num 5)], []⟩) applyType =
      ⟨[("x", .num 1)], [([("x", .num 1)], [("x", .num 5)])],
       some [("x", .num 1)], []⟩) :=
  ⟨(C7_apply_resync pairDelta constReducer xIface none
      ⟨[("x", .num 5)], [], some [("x", .num 5)], []⟩).1 rfl,
   (C7_apply_resync pairDelta constReducer xIface none
      ⟨[("x", .num 5)], [([("x", .num 9)], [("x", .num 5)])],
       some [("x", .num 5)], []⟩).2
     ([("x", .num 9)], [("x", .num 5)]) [] [("x", .num 5)] rfl rfl⟩

theorem saveMoment_history_of_migrate_none {Δ : Type} (prim : DiffPrim Δ)
    (c : SimpleBackup.SChildren) (limit : Option Nat)
    (reducer : Option Obj → String → Obj) (a : String) :
    (saveMoment prim c limit (migrateStep (Δ := Δ) reducer none a)).history = [] := by
  unfold saveMoment migrateStep
  match limit with
  | none => simp
  | some l => simp

/-- C5: the undoable reducer records a moment, exactly as saveMoment builds
it (new present snapshot of the just-reduced live state, the old present's
delta prepended when one existed, future cleared), precisely when the action
type contains the moment marker or the call has no prior envelope; any other
action that is not one of the three sentinels carries history, present and
future forward unchanged, in particular without clearing future. -/
theorem C5_moment_classification {Δ : Type} (prim : DiffPrim Δ)
    (reducer : Option Obj → String → Obj) (c : SimpleBackup.SChildren)
    (limit : Option Nat) (s : Option (Envelope Δ)) (a : String) :
    (strContains a undoableMarker = true ∨ s = none →
      undoableReducer prim reducer c limit s a
        = saveMoment prim c limit (migrateStep reducer s a))
    ∧ (∀ e, s = some e → strContains a undoableMarker = false →
        a ≠ undoType → a ≠ redoType → a ≠ applyType →
        undoableReducer prim reducer c limit s a
          = ⟨reducer (some e.live) a, e.history, e.present, e.future⟩) := by
  constructor
  · intro h
    by_cases hm : strContains a undoableMarker = true
    · have hu : a ≠ undoType := by
        intro he; rw [he, strContains_undo_false] at hm; cases hm
      have hr : a ≠ redoType := by
        intro he; rw [he, strContains_redo_false] at hm; cases hm
      have ha : a ≠ applyType := by
        intro he; rw [he, strContains_apply_false] at hm; cases hm
      unfold undoableReducer
      simp [hm, hu, hr, ha]
    · have hsn : s = none := by
        rcases h with h | h
        · exact absurd h hm
        · exact h
      subst hsn
      simp only [Bool.not_eq_true] at hm
      have hhist := saveMoment_history_of_migrate_none prim c limit reducer a
      have hfut : (saveMoment prim c limit (migrateStep (Δ := Δ) reducer none a)).future = [] :=
        saveMoment_future prim c limit _
      unfold undoableReducer
      simp only [hm, Option.isNone_none, Bool.or_true, if_true]
      by_cases hu : a = undoType
      · subst hu
        rw [if_pos rfl]
        apply restoreMoment_noop
        refine Or.inr (Or.inl ?_)
        rw [hhist]
        simp
      · rw [if_neg hu]
        by_cases hr : a = redoType
        · subst hr
          rw [if_pos rfl]
          apply restoreMoment_noop
          refine Or.inr (Or.inr ?_)
          rw [hfut]
          simp
        · rw [if_neg hr]
          by_cases ha : a = applyType
          · subst ha
            rw [if_pos rfl]
            have hpres : (saveMoment prim c limit
                  (migrateStep (Δ := Δ) reducer none applyType)).present
                = some (SimpleBackup.createBackup
                    (.obj (saveMoment prim c limit
                      (migrateStep (Δ := Δ) reducer none applyType)).live) c) := rfl
            have hupm : updatePresentMoment prim c
                  (saveMoment prim c limit (migrateStep (Δ := Δ) reducer none applyType))
                = ⟨(saveMoment prim c limit (migrateStep (Δ := Δ) reducer none applyType)).live,
                   [],
                   some (SimpleBackup.createBackup
                     (.obj (saveMoment prim c limit
                       (migrateStep (Δ := Δ) reducer none applyType)).live) c),
                   []⟩ := by
              unfold updatePresentMoment
              rw [hhist]
            rw [hupm]
            conv_rhs => rw [show saveMoment prim c limit
                (migrateStep (Δ := Δ) reducer none applyType)
              = ⟨(saveMoment prim c limit (migrateStep (Δ := Δ) reducer none applyType)).live,
                 (saveMoment prim c limit (migrateStep (Δ := Δ) reducer none applyType)).history,
                 (saveMoment prim c limit (migrateStep (Δ := Δ) reducer none applyType)).present,
                 (saveMoment prim c limit (migrateStep (Δ := Δ) reducer none applyType)).future⟩
              from rfl]
            rw [hhist, hfut, hpres]
          · rw [if_neg ha]
  · intro e hse hm hu hr ha
    subst hse
    unfold undoableReducer
    simp [hm, hu, hr, ha, migrateStep]

/-- Witness for C5_moment_classification: both parts at concrete inputs, a
marker action on a populated envelope and a plain action on one. -/
theorem C5_moment_classification_witness :
    (undoableReducer pairDelta constReducer xIface none
        (some ⟨[("x", .num 5)], [], some [("x", .num 5)], [([], [])]⟩) "m/undoable/a"
      = saveMoment pairDelta xIface none
          (migrateStep constReducer
            (some ⟨[("x", .num 5)], [], some [("x", .num 5)], [([], [])]⟩) "m/undoable/a"))
    ∧ (undoableReducer pairDelta constReducer xIface none
        (some ⟨[("x", .num 5)], [], some [("x", .num 5)], [([], [])]⟩) "plain"
      = ⟨[("x", .num 1)], [], some [("x", .num 5)], [([], [])]⟩) :=
  ⟨(C5_moment_classification pairDelta constReducer xIface none
      (some ⟨[("x", .num 5)], [], some [("x", .num 5)], [([], [])]⟩) "m/undoable/a").1
      (Or.inl rfl),
   (C5_moment_classification pairDelta constReducer xIface none
      (some ⟨[("x", .num 5)], [], some [("x", .num 5)], [([], [])]⟩) "plain").2
      ⟨[("x", .num 5)], [], some [("x", .num 5)], [([], [])]⟩ rfl rfl
      (by decide) (by decide) (by decide)⟩

/-! ## Scenario B and the update semantics (claim C8) -/

/-- Increment a numeric value by one, as the Scenario B slices do. -/
def vIncr : Value → Value
  | .num n => .num (n + 1)
  | v => v

/-- A sibling codec that pulls the shared slice through needs, updates it
with its increment, and stores its own snapshot value. -/
def incrSharedCodec : DepBackup.BNode :=
  .sliceB (fun s => s)
    (fun d => .needs "shared" (fun v => .update "shared" (vIncr v) (.ret d)))

/-- The shared slice's codec: save and load are the identity. -/
def copyCodec : DepBackup.BNode := .sliceB (fun s => s) (fun d => .ret d)

/-- Scenario B's tree with sibling a declared first. -/
def sharedTreeAB : DepBackup.BChildren :=
  .consB "a" incrSharedCodec (.consB "b" incrSharedCodec
    (.consB "shared" copyCodec .nilB))

/-- Scenario B's tree with sibling b declared first. -/
def sharedTreeBA : DepBackup.BChildren :=
  .consB "b" incrSharedCodec (.consB "a" incrSharedCodec
    (.consB "shared" copyCodec .nilB))

/-- C8: with two sibling codecs that each pull the shared slice through needs
and then update it with its increment, loadBackup loads shared as its
snapshot value plus two, whichever sibling is declared (and so loads) first;
and the dependency loader's update on an already-loaded key overwrites the
loaded value outright when the patch is a number, string or array, and
shallow-merges the patch's fields over it when the patch is a record. -/
theorem C8_shared_plus_two_and_update_semantics :
    (∀ n : Int,
      DepBackup.loadBackup 20 (.obj []) sharedTreeAB
          (.obj [("a", .str "sa"), ("b", .str "sb"), ("shared", .num n)])
        = .ok [("shared", .num (n + 2)), ("a", .str "sa"), ("b", .str "sb")])
    ∧ (∀ n : Int,
      DepBackup.loadBackup 20 (.obj []) sharedTreeBA
          (.obj [("a", .str "sa"), ("b", .str "sb"), ("shared", .num n)])
        = .ok [("shared", .num (n + 2)), ("b", .str "sb"), ("a", .str "sa")])
    ∧ (∀ (fuel : Nat) (state : Value) (c : DepBackup.BChildren) (store : Value)
        (key : String) (rest : DepBackup.LoadProg) (ls : DepBackup.LoadSt),
        ls.loadedKeys.contains key = true →
        (∀ n : Int,
          DepBackup.runProg (fuel + 1) state c store (.update key (.num n) rest) ls
            = DepBackup.runProg fuel state c store rest
                { ls with loaded := objSet ls.loaded key (.num n) })
        ∧ (∀ s : String,
          DepBackup.runProg (fuel + 1) state c store (.update key (.str s) rest) ls
            = DepBackup.runProg fuel state c store rest
                { ls with loaded := objSet ls.loaded key (.str s) })
        ∧ (∀ xs : List Value,
          DepBackup.runProg (fuel + 1) state c store (.update key (.arr xs) rest) ls
            = DepBackup.runProg fuel state c store rest
                { ls with loaded := objSet ls.loaded key (.arr xs) })
        ∧ (∀ fields : List (String × Value),
          DepBackup.runProg (fuel + 1) state c store (.update key (.obj fields) rest) ls
            = DepBackup.runProg fuel state c store rest
                { ls with loaded := (objSet ls.loaded key
                    (.obj (spreadObjs (toFields (objGet ls.loaded key)) fields))) })) := by
  refine ⟨?_, ?_, ?_⟩
  · intro n
    have h2 : n + 2 = n + 1 + 1 := by omega
    rw [h2]
    exact rfl
  · intro n
    have h2 : n + 2 = n + 1 + 1 := by omega
    rw [h2]
    exact rfl
  · intro fuel state c store key rest ls hmem
    have hmem2 : key ∈ ls.loadedKeys := by simpa using hmem
    refine ⟨?_, ?_, ?_, ?_⟩
    · intro n
      conv_lhs => unfold DepBackup.runProg
      simp [hmem2]
    · intro s
      conv_lhs => unfold DepBackup.runProg
      simp [hmem2]
    · intro xs
      conv_lhs => unfold DepBackup.runProg
      simp [hmem2]
    · intro fields
      conv_lhs => unfold DepBackup.runProg
      simp [hmem2, toFields]

/-- Witness for C8_shared_plus_two_and_update_semantics: the scenario at
snapshot value 42 and the update semantics at a loaded one-key state. -/
theorem C8_shared_plus_two_and_update_semantics_witness :
    (DepBackup.loadBackup 20 (.obj []) sharedTreeAB
        (.obj [("a", .str "sa"), ("b", .str "sb"), ("shared", .num 42)])
      = .ok [("shared", .num 44), ("a", .str "sa"), ("b", .str "sb")])
    ∧ (DepBackup.runProg 3 (.obj []) sharedTreeAB (.obj [])
          (.update "k" (.num 7) (.ret .undef)) ⟨[("k", .num 1)], ["k"], []⟩
        = DepBackup.runProg 2 (.obj []) sharedTreeAB (.obj [])
            (.ret .undef) ⟨[("k", .num 7)], ["k"], []⟩) :=
  ⟨by
    have := C8_shared_plus_two_and_update_semantics.1 42
    simpa using this,
   by
    have := (C8_shared_plus_two_and_update_semantics.2.2 2 (.obj []) sharedTreeAB
      (.obj []) "k" (.ret .undef) ⟨[("k", .num 1)], ["k"], []⟩ rfl).1 7
    simpa [objSet] using this⟩

/-! ## Further object-spread lemmas for the loadBackup analysis -/

theorem mem_objSet (o : Obj) (k : String) (v : Value) (x : String × Value)
    (hx : x ∈ objSet o k v) : x = (k, v) ∨ x ∈ o := by
  induction o with
  | nil =>
    simp [objSet] at hx
    exact Or.inl hx
  | cons kv rest ih =>
    by_cases hk : kv.1 = k
    · simp only [objSet, if_pos hk] at hx
      rcases List.mem_cons.mp hx with h | h
      · exact Or.inl h
      · exact Or.inr (List.mem_cons_of_mem _ h)
    · simp only [objSet, if_neg hk] at hx
      rcases List.mem_cons.mp hx with h | h
      · exact Or.inr (h ▸ List.mem_cons_self kv rest)
      · rcases ih h with h' | h'
        · exact Or.inl h'
        · exact Or.inr (List.mem_cons_of_mem _ h')

theorem objHasKey_objSet_mono (o : Obj) (k k' : String) (v : Value)
    (h : objHasKey o k = true) : objHasKey (objSet o k' v) k = true := by
  by_cases hk : k' = k
  · subst hk
    exact objHasKey_objSet_self o k' v
  · rw [objHasKey_objSet_ne o k' k v hk]
    exact h

theorem objGet_spreadObjs_not_right (a b : Obj) (k : String)
    (h : objHasKey b k = false) : objGet (spreadObjs a b) k = objGet a k := by
  induction b generalizing a with
  | nil => simp [spreadObjs]
  | cons kv rest ih =>
    have hstep : spreadObjs a (kv :: rest) = spreadObjs (objSet a kv.1 kv.2) rest := by
      simp [spreadObjs, List.foldl_cons]
    by_cases hk : kv.1 = k
    · simp [objHasKey, hk] at h
    · simp only [objHasKey, if_neg hk] at h
      rw [hstep, ih _ h, objGet_objSet_ne _ _ _ _ hk]

theorem objGet_spreadObjs_all_undef (a b : Obj) (k : String)
    (h1 : objHasKey b k = true)
    (h2 : ∀ v', (k, v') ∈ b → v' = Value.undef) :
    objGet (spreadObjs a b) k = .undef := by
  induction b generalizing a with
  | nil => simp [objHasKey] at h1
  | cons kv rest ih =>
    have hstep : spreadObjs a (kv :: rest) = spreadObjs (objSet a kv.1 kv.2) rest := by
      simp [spreadObjs, List.foldl_cons]
    rw [hstep]
    by_cases hrest : objHasKey rest k = true
    · exact ih _ hrest (fun v' hv' => h2 v' (List.mem_cons_of_mem _ hv'))
    · have hk : kv.1 = k := by
        by_contra hk
        simp [objHasKey, hk, hrest] at h1
      have hv : kv.2 = Value.undef := by
        apply h2
        rw [← hk]
        exact List.mem_cons_self kv rest
      rw [objGet_spreadObjs_not_right _ _ _ (by simpa using hrest), hk, hv]
      exact objGet_objSet_self a k Value.undef

namespace DepBackup

/-! ## Interpreter state facts shared by the loadBackup claims -/

/-- loadedKeys only grows: every key loaded when a call starts is still
loaded when it returns; LoadKey records its own key; the loop records every
declared key. -/
theorem loadedKeys_mono (fuel : Nat) :
    (∀ (state : Value) (c : BChildren) (store : Value) (key : String) (ls ls' : LoadSt),
      LoadKey fuel state c store key ls = .ok ls' →
        (∀ x, x ∈ ls.loadedKeys → x ∈ ls'.loadedKeys) ∧ key ∈ ls'.loadedKeys)
    ∧ (∀ (state : Value) (c : BChildren) (store : Value) (p : LoadProg) (ls : LoadSt)
        (v : Value) (ls' : LoadSt),
      runProg fuel state c store p ls = .ok (v, ls') →
        ∀ x, x ∈ ls.loadedKeys → x ∈ ls'.loadedKeys)
    ∧ (∀ (state : Value) (c : BChildren) (store : Value) (rem : BChildren) (ls ls' : LoadSt),
      loadLoop fuel state c store rem ls = .ok ls' →
        (∀ x, x ∈ ls.loadedKeys → x ∈ ls'.loadedKeys)
          ∧ ∀ x, x ∈ keysB rem → x ∈ ls'.loadedKeys) := by
  induction fuel with
  | zero =>
    refine ⟨?_, ?_, ?_⟩
    · intro _ _ _ _ _ _ h
      simp [LoadKey] at h
    · intro _ _ _ _ _ _ _ h
      simp [runProg] at h
    · intro _ _ _ _ _ _ h
      simp [loadLoop] at h
  | succ fuel ih =>
    obtain ⟨ihK, ihP, ihL⟩ := ih
    refine ⟨?_, ?_, ?_⟩
    · intro state c store key ls ls' h
      have pbase : ∀ ls2 : LoadSt, ls2.loadedKeys = ls.loadedKeys ++ [key] →
          (∀ x, x ∈ ls.loadedKeys → x ∈ ls2.loadedKeys) ∧ key ∈ ls2.loadedKeys := by
        intro ls2 hk
        rw [hk]
        exact ⟨fun x hx => List.mem_append_left _ hx, List.mem_append_right _ (by simp)⟩
      unfold LoadKey at h
      split at h
      · exact absurd h (by simp)
      · split at h
        · simp only [Except.ok.injEq] at h
          subst h
          exact pbase _ rfl
        · simp only [Except.ok.injEq] at h
          subst h
          exact pbase _ rfl
        · dsimp only [] at h
          split at h
          · -- loaded slot still undefined: the load actually runs
            split at h
            · exact absurd h (by simp)
            · split at h
              · -- slice codec entry
                split at h
                · exact absurd h (by simp)
                · rename_i v ls2 heqP
                  simp only [Except.ok.injEq] at h
                  subst h
                  have hmono := ihP _ _ _ _ _ _ _ heqP
                  constructor
                  · intro x hx
                    exact hmono x (by simp [hx])
                  · exact hmono key (by simp)
              · -- nested state entry
                split at h
                · exact absurd h (by simp)
                · simp only [Except.ok.injEq] at h
                  subst h
                  exact pbase _ rfl
          · -- loaded slot already populated: early return
            simp only [Except.ok.injEq] at h
            subst h
            exact pbase _ rfl
    · intro state c store p ls v ls' h
      unfold runProg at h
      match p with
      | .ret w =>
        simp only [Except.ok.injEq, Prod.mk.injEq] at h
        rw [← h.2]
        exact fun x hx => hx
      | .needs key cont =>
        simp only [] at h
        split at h
        · exact absurd h (by simp)
        · rename_i ls2 heq2
          split at heq2
          · simp only [Except.ok.injEq] at heq2
            subst heq2
            exact fun x hx => ihP _ _ _ _ _ _ _ h x hx
          · intro x hx
            exact ihP _ _ _ _ _ _ _ h x ((ihK _ _ _ _ _ _ heq2).1 x hx)
      | .update key patch rest =>
        simp only [] at h
        split at h
        · exact absurd h (by simp)
        · rename_i ls2 heq2
          split at heq2
          · simp only [Except.ok.injEq] at heq2
            subst heq2
            exact fun x hx => ihP _ _ _ _ _ _ _ h x hx
          · intro x hx
            exact ihP _ _ _ _ _ _ _ h x ((ihK _ _ _ _ _ _ heq2).1 x hx)
    · intro state c store rem ls ls' h
      unfold loadLoop at h
      match rem with
      | .nilB =>
        simp only [Except.ok.injEq] at h
        subst h
        exact ⟨fun x hx => hx, by simp [keysB]⟩
      | .missingB key rest =>
        simp only [] at h
        split at h
        · exact absurd h (by simp)
        · rename_i ls2 heq2
          have hrest := ihL _ _ _ _ _ _ h
          split at heq2
          · rename_i hmem
            simp only [Except.ok.injEq] at heq2
            subst heq2
            refine ⟨hrest.1, ?_⟩
            intro x hx
            simp only [keysB, List.mem_cons] at hx
            rcases hx with hx | hx
            · subst hx
              exact hrest.1 x (by simpa using hmem)
            · exact hrest.2 x hx
          · have hK := ihK _ _ _ _ _ _ heq2
            refine ⟨fun x hx => hrest.1 x (hK.1 x hx), ?_⟩
            intro x hx
            simp only [keysB, List.mem_cons] at hx
            rcases hx with hx | hx
            · subst hx
              exact hrest.1 x hK.2
            · exact hrest.2 x hx
      | .consB key node rest =>
        simp only [] at h
        split at h
        · exact absurd h (by simp)
        · rename_i ls2 heq2
          have hrest := ihL _ _ _ _ _ _ h
          split at heq2
          · rename_i hmem
            simp only [Except.ok.injEq] at heq2
            subst heq2
            refine ⟨hrest.1, ?_⟩
            intro x hx
            simp only [keysB, List.mem_cons] at hx
            rcases hx with hx | hx
            · subst hx
              exact hrest.1 x (by simpa using hmem)
            · exact hrest.2 x hx
          · have hK := ihK _ _ _ _ _ _ heq2
            refine ⟨fun x hx => hrest.1 x (hK.1 x hx), ?_⟩
            intro x hx
            simp only [keysB, List.mem_cons] at hx
            rcases hx with hx | hx
            · subst hx
              exact hrest.1 x hK.2
            · exact hrest.2 x hx


/-! ## The frame property of loadBackup (claims C9 and C10) -/

/-- A load program never updates the key k, whatever values its needs
requests receive. -/
def ProgAvoids (k : String) : LoadProg → Prop
  | .ret _ => True
  | .needs _ cont => ∀ v, ProgAvoids k (cont v)
  | .update key _ rest => key ≠ k ∧ ProgAvoids k rest

/-- Every top-level slice codec's load program avoids updating k (nested
interfaces load into their own accumulator, so they are not constrained). -/
def TreeAvoids (k : String) : BChildren → Prop
  | .nilB => True
  | .missingB _ rest => TreeAvoids k rest
  | .consB _ (.sliceB _ load) rest =>
      (∀ stored, ProgAvoids k (load stored)) ∧ TreeAvoids k rest
  | .consB _ (.stateB _) rest => TreeAvoids k rest

theorem TreeAvoids_lookup (k : String) :
    ∀ (c : BChildren), TreeAvoids k c → ∀ (key : String) (save : Value → Value)
      (load : Value → LoadProg),
      lookupB c key = some (some (.sliceB save load)) →
      ∀ stored, ProgAvoids k (load stored)
  | .nilB, _, key, save, load, hl => by simp [lookupB] at hl
  | .missingB k' rest, hT, key, save, load, hl => by
    simp only [lookupB] at hl
    split at hl
    · cases hl
    · exact TreeAvoids_lookup k rest hT key save load hl
  | .consB k' node rest, hT, key, save, load, hl => by
    simp only [lookupB] at hl
    split at hl
    · simp only [Option.some.injEq] at hl
      subst hl
      exact hT.1
    · match node, hT with
      | .sliceB s l, hT => exact TreeAvoids_lookup k rest hT.2 key save load hl
      | .stateB sub, hT => exact TreeAvoids_lookup k rest hT key save load hl

theorem lookupB_ne_of_mismatch (c : BChildren) (k key : String)
    (hk : lookupB c k = none ∨ lookupB c k = some none)
    (node : BNode) (hkey : lookupB c key = some (some node)) : key ≠ k := by
  intro he
  subst he
  rcases hk with hk | hk <;> rw [hk] at hkey <;> cases hkey

/-- When no top-level load program updates k and k itself has no effective
loader, the loaded accumulator never acquires a k entry. -/
theorem avoids_keeps_k_out (k : String) (c : BChildren)
    (hk : lookupB c k = none ∨ lookupB c k = some none)
    (hT : TreeAvoids k c) (fuel : Nat) :
    (∀ (state : Value) (store : Value) (key : String) (ls ls' : LoadSt),
      LoadKey fuel state c store key ls = .ok ls' →
        objHasKey ls.loaded k = false → objHasKey ls'.loaded k = false)
    ∧ (∀ (state : Value) (store : Value) (p : LoadProg) (ls : LoadSt)
        (v : Value) (ls' : LoadSt),
      runProg fuel state c store p ls = .ok (v, ls') → ProgAvoids k p →
        objHasKey ls.loaded k = false → objHasKey ls'.loaded k = false)
    ∧ (∀ (state : Value) (store : Value) (rem : BChildren) (ls ls' : LoadSt),
      loadLoop fuel state c store rem ls = .ok ls' →
        objHasKey ls.loaded k = false → objHasKey ls'.loaded k = false) := by
  induction fuel with
  | zero =>
    refine ⟨?_, ?_, ?_⟩
    · intro _ _ _ _ _ h
      simp [LoadKey] at h
    · intro _ _ _ _ _ _ h
      simp [runProg] at h
    · intro _ _ _ _ _ h
      simp [loadLoop] at h
  | succ fuel ih =>
    obtain ⟨ihK, ihP, ihL⟩ := ih
    refine ⟨?_, ?_, ?_⟩
    · intro state store key ls ls' h hno
      unfold LoadKey at h
      split at h
      · exact absurd h (by simp)
      · split at h
        · simp only [Except.ok.injEq] at h
          subst h
          exact hno
        · simp only [Except.ok.injEq] at h
          subst h
          exact hno
        · dsimp only [] at h
          split at h
          · split at h
            · exact absurd h (by simp)
            · split at h
              · -- slice codec entry
                rename_i heqL
                split at h
                · exact absurd h (by simp)
                · rename_i save load v ls2 heqP
                  have hne : key ≠ k := lookupB_ne_of_mismatch c k key hk _ heqL
                  simp only [Except.ok.injEq] at h
                  subst h
                  simp only []
                  rw [objHasKey_objSet_ne _ _ _ _ hne]
                  exact ihP _ _ _ _ _ _ heqP
                    (TreeAvoids_lookup k c hT key _ _ heqL _) hno
              · -- nested state entry
                rename_i heqL
                split at h
                · exact absurd h (by simp)
                · have hne : key ≠ k := lookupB_ne_of_mismatch c k key hk _ heqL
                  simp only [Except.ok.injEq] at h
                  subst h
                  simp only []
                  rw [objHasKey_objSet_ne _ _ _ _ hne]
                  exact hno
          · simp only [Except.ok.injEq] at h
            subst h
            exact hno
    · intro state store p ls v ls' h hp hno
      unfold runProg at h
      match p with
      | .ret w =>
        simp only [Except.ok.injEq, Prod.mk.injEq] at h
        rw [← h.2]
        exact hno
      | .needs key cont =>
        simp only [] at h
        split at h
        · exact absurd h (by simp)
        · rename_i ls2 heq2
          split at heq2
          · simp only [Except.ok.injEq] at heq2
            subst heq2
            exact ihP _ _ _ _ _ _ h (hp _) hno
          · exact ihP _ _ _ _ _ _ h (hp _) (ihK _ _ _ _ _ heq2 hno)
      | .update key patch rest =>
        simp only [] at h
        split at h
        · exact absurd h (by simp)
        · rename_i ls2 heq2
          have hstep : objHasKey ls2.loaded k = false := by
            split at heq2
            · simp only [Except.ok.injEq] at heq2
              subst heq2
              exact hno
            · exact ihK _ _ _ _ _ heq2 hno
          refine ihP _ _ _ _ _ _ h hp.2 ?_
          simp only []
          rw [objHasKey_objSet_ne _ _ _ _ hp.1]
          exact hstep
    · intro state store rem ls ls' h hno
      unfold loadLoop at h
      match rem with
      | .nilB =>
        simp only [Except.ok.injEq] at h
        subst h
        exact hno
      | .missingB key rest =>
        simp only [] at h
        split at h
        · exact absurd h (by simp)
        · rename_i ls2 heq2
          refine ihL _ _ _ _ _ h ?_
          split at heq2
          · simp only [Except.ok.injEq] at heq2
            subst heq2
            exact hno
          · exact ihK _ _ _ _ _ heq2 hno
      | .consB key node rest =>
        simp only [] at h
        split at h
        · exact absurd h (by simp)
        · rename_i ls2 heq2
          refine ihL _ _ _ _ _ h ?_
          split at heq2
          · simp only [Except.ok.injEq] at heq2
            subst heq2
            exact hno
          · exact ihK _ _ _ _ _ heq2 hno


theorem objHasKey_of_mem (l : Obj) (k : String) (v : Value) (h : (k, v) ∈ l) :
    objHasKey l k = true := by
  induction l with
  | nil => cases h
  | cons kv rest ih =>
    rcases List.mem_cons.mp h with he | hm
    · rw [← he]
      simp [objHasKey]
    · by_cases hk : kv.1 = k
      · simp [objHasKey, hk]
      · simp [objHasKey, hk, ih hm]

theorem undef_entries_objSet_ne (l : Obj) (k key : String) (v : Value)
    (hne : key ≠ k) (hall : ∀ v', (k, v') ∈ l → v' = Value.undef) :
    ∀ v', (k, v') ∈ objSet l key v → v' = Value.undef := by
  intro v' hv'
  rcases mem_objSet _ _ _ _ hv' with he | hm
  · exact absurd (congrArg Prod.fst he) (by simpa using Ne.symm hne)
  · exact hall _ hm

theorem lookupB_mem_keysB : ∀ (c : BChildren) (k : String) (o : Option BNode),
    lookupB c k = some o → k ∈ keysB c
  | .nilB, k, o, h => by simp [lookupB] at h
  | .missingB k' rest, k, o, h => by
    simp only [lookupB] at h
    split at h
    · rename_i he
      simp [keysB, he]
    · simp [keysB, lookupB_mem_keysB rest k o h]
  | .consB k' node rest, k, o, h => by
    simp only [lookupB] at h
    split at h
    · rename_i he
      simp [keysB, he]
    · simp [keysB, lookupB_mem_keysB rest k o h]

/-- The loaded slot of k only ever holds undefined: before k is marked
loaded there is no slot (and k is not queued), afterwards every k entry of
the accumulator is undefined. -/
def UndefSlot (k : String) (ls : LoadSt) : Prop :=
  (k ∈ ls.loadedKeys →
    objHasKey ls.loaded k = true ∧ ∀ v', (k, v') ∈ ls.loaded → v' = Value.undef)
  ∧ (k ∉ ls.loadedKeys → objHasKey ls.loaded k = false ∧ k ∉ ls.loadQueue)

/-- When k's codec is a slice whose load program at the snapshot's stored
value returns undefined, and no top-level load updates k, the k slot of the
loaded accumulator can only ever be undefined. -/
theorem undef_slot_preserved (k : String) (c : BChildren) (store : Value)
    (save0 : Value → Value) (load0 : Value → LoadProg)
    (hsl : lookupB c k = some (some (.sliceB save0 load0)))
    (hld : load0 (vGet store k) = .ret .undef)
    (hT : TreeAvoids k c) (fuel : Nat) :
    (∀ (state : Value) (key : String) (ls ls' : LoadSt),
      LoadKey fuel state c store key ls = .ok ls' →
        UndefSlot k ls → UndefSlot k ls')
    ∧ (∀ (state : Value) (p : LoadProg) (ls : LoadSt) (v : Value) (ls' : LoadSt),
      runProg fuel state c store p ls = .ok (v, ls') → ProgAvoids k p →
        UndefSlot k ls → UndefSlot k ls')
    ∧ (∀ (state : Value) (rem : BChildren) (ls ls' : LoadSt),
      loadLoop fuel state c store rem ls = .ok ls' →
        UndefSlot k ls → UndefSlot k ls') := by
  induction fuel with
  | zero =>
    refine ⟨?_, ?_, ?_⟩
    · intro _ _ _ _ h
      simp [LoadKey] at h
    · intro _ _ _ _ _ h
      simp [runProg] at h
    · intro _ _ _ _ h
      simp [loadLoop] at h
  | succ fuel ih =>
    obtain ⟨ihK, ihP, ihL⟩ := ih
    have carryNe : ∀ (lsa : LoadSt) (key : String), key ≠ k → UndefSlot k lsa →
        UndefSlot k { lsa with loadedKeys := lsa.loadedKeys ++ [key] } := by
      intro lsa key hne hinv
      constructor
      · intro hmem
        refine hinv.1 ?_
        rcases List.mem_append.mp hmem with hm | hm
        · exact hm
        · exact absurd (by simpa using hm) (Ne.symm hne)
      · intro hnot
        exact hinv.2 (fun hm => hnot (List.mem_append_left _ hm))
    refine ⟨?_, ?_, ?_⟩
    · intro state key ls ls' h hinv
      unfold LoadKey at h
      split at h
      · exact absurd h (by simp)
      · rename_i hnotc
        by_cases hkey : key = k
        · -- loading k itself: the load runs and records an undefined entry
          subst hkey
          have hout : key ∉ ls.loadedKeys := by
            intro hm
            exact hnotc (by simpa using hm)
          have hbase := hinv.2 hout
          rw [hsl] at h
          dsimp only [] at h
          rw [objHasKey_false_objGet _ _ hbase.1] at h
          have hqc : ls.loadQueue.contains key = false := by
            rw [Bool.eq_false_iff]
            intro hq
            exact hbase.2 (by simpa using hq)
          rw [hqc] at h
          simp only [Bool.false_eq_true, if_false] at h
          rw [hld] at h
          match fuel, h with
          | 0, h => simp [runProg] at h
          | fuel + 1, h =>
            simp only [runProg, Except.ok.injEq] at h
            subst h
            constructor
            · intro _
              refine ⟨objHasKey_objSet_self _ _ _, ?_⟩
              intro v' hv'
              rcases mem_objSet _ _ _ _ hv' with he' | hm
              · exact congrArg Prod.snd he'
              · exact absurd (objHasKey_of_mem _ _ _ hm) (by simp [hbase.1])
            · intro hnot
              exfalso
              apply hnot
              simp
        · -- loading some other key: the k slot is carried or untouched
          rcases hc : lookupB c key with _ | onode
          · rw [hc] at h
            dsimp only [] at h
            simp only [Except.ok.injEq] at h
            subst h
            exact carryNe ls key hkey hinv
          · rcases onode with _ | node
            · rw [hc] at h
              dsimp only [] at h
              simp only [Except.ok.injEq] at h
              subst h
              exact carryNe ls key hkey hinv
            · rw [hc] at h
              dsimp only [] at h
              rcases hslot : objGet ls.loaded key with _ | n | s | xs | fs
              all_goals rw [hslot] at h
              case _ =>
                -- the slot is undefined: the load runs
                rcases hqc : ls.loadQueue.contains key with _ | _
                · rw [hqc] at h
                  simp only [Bool.false_eq_true, if_false] at h
                  rcases node with ⟨save, load⟩ | sub
                  · -- slice codec
                    dsimp only [] at h
                    rcases hrun : runProg fuel state c store (load (vGet store key))
                        { ls with loadedKeys := ls.loadedKeys ++ [key],
                                  loadQueue := ls.loadQueue ++ [key] } with e | vls2
                    · rw [hrun] at h
                      cases h
                    · rcases vls2 with ⟨v, ls2⟩
                      rw [hrun] at h
                      simp only [Except.ok.injEq] at h
                      subst h
                      have hinv2 : UndefSlot k ls2 := by
                        refine ihP _ _ _ _ _ hrun
                          (TreeAvoids_lookup k c hT key _ _ hc _) ?_
                        constructor
                        · intro hmem
                          exact (carryNe ls key hkey hinv).1 hmem
                        · intro hnot
                          have := (carryNe ls key hkey hinv).2 hnot
                          refine ⟨this.1, ?_⟩
                          intro hm
                          rcases List.mem_append.mp hm with hm' | hm'
                          · exact this.2 hm'
                          · exact absurd (by simpa using hm') (Ne.symm hkey)
                      constructor
                      · intro hmem
                        have h2 := hinv2.1 hmem
                        refine ⟨?_, undef_entries_objSet_ne _ _ _ _ hkey h2.2⟩
                        rw [objHasKey_objSet_ne _ _ _ _ hkey]
                        exact h2.1
                      · intro hnot
                        have h2 := hinv2.2 hnot
                        refine ⟨?_, ?_⟩
                        · rw [objHasKey_objSet_ne _ _ _ _ hkey]
                          exact h2.1
                        · intro hm
                          exact h2.2 (List.mem_of_mem_erase hm)
                  · -- nested interface
                    dsimp only [] at h
                    rcases hrun : loadBackup fuel
                        (match vGet state key with
                          | Value.undef => Value.obj []
                          | v => v) sub (vGet store key) with e | result
                    · rw [hrun] at h
                      cases h
                    · rw [hrun] at h
                      simp only [Except.ok.injEq] at h
                      subst h
                      constructor
                      · intro hmem
                        have h2 := (carryNe ls key hkey hinv).1 hmem
                        refine ⟨?_, undef_entries_objSet_ne _ _ _ _ hkey h2.2⟩
                        rw [objHasKey_objSet_ne _ _ _ _ hkey]
                        exact h2.1
                      · intro hnot
                        have h2 := (carryNe ls key hkey hinv).2 hnot
                        refine ⟨?_, ?_⟩
                        · rw [objHasKey_objSet_ne _ _ _ _ hkey]
                          exact h2.1
                        · intro hm
                          have hm2 := List.mem_of_mem_erase hm
                          rcases List.mem_append.mp hm2 with hm' | hm'
                          · exact h2.2 hm'
                          · exact absurd (by simpa using hm') (Ne.symm hkey)
                · rw [hqc] at h
                  simp at h
              all_goals
                simp only [Except.ok.injEq] at h
                subst h
                exact carryNe ls key hkey hinv
    · intro state p ls v ls' h hp hinv
      unfold runProg at h
      match p with
      | .ret w =>
        simp only [Except.ok.injEq, Prod.mk.injEq] at h
        rw [← h.2]
        exact hinv
      | .needs key cont =>
        simp only [] at h
        split at h
        · exact absurd h (by simp)
        · rename_i ls2 heq2
          refine ihP _ _ _ _ _ h (hp _) ?_
          split at heq2
          · simp only [Except.ok.injEq] at heq2
            subst heq2
            exact hinv
          · exact ihK _ _ _ _ heq2 hinv
      | .update key patch rest =>
        simp only [] at h
        split at h
        · exact absurd h (by simp)
        · rename_i ls2 heq2
          have hinv2 : UndefSlot k ls2 := by
            split at heq2
            · simp only [Except.ok.injEq] at heq2
              subst heq2
              exact hinv
            · exact ihK _ _ _ _ heq2 hinv
          refine ihP _ _ _ _ _ h hp.2 ?_
          constructor
          · intro hmem
            have h2 := hinv2.1 hmem
            refine ⟨?_, undef_entries_objSet_ne _ _ _ _ hp.1 h2.2⟩
            rw [objHasKey_objSet_ne _ _ _ _ hp.1]
            exact h2.1
          · intro hnot
            have h2 := hinv2.2 hnot
            refine ⟨?_, h2.2⟩
            rw [objHasKey_objSet_ne _ _ _ _ hp.1]
            exact h2.1
    · intro state rem ls ls' h hinv
      unfold loadLoop at h
      match rem with
      | .nilB =>
        simp only [Except.ok.injEq] at h
        subst h
        exact hinv
      | .missingB key rest =>
        simp only [] at h
        split at h
        · exact absurd h (by simp)
        · rename_i ls2 heq2
          refine ihL _ _ _ _ h ?_
          split at heq2
          · simp only [Except.ok.injEq] at heq2
            subst heq2
            exact hinv
          · exact ihK _ _ _ _ heq2 hinv
      | .consB key node rest =>
        simp only [] at h
        split at h
        · exact absurd h (by simp)
        · rename_i ls2 heq2
          refine ihL _ _ _ _ h ?_
          split at heq2
          · simp only [Except.ok.injEq] at heq2
            subst heq2
            exact hinv
          · exact ihK _ _ _ _ heq2 hinv

end DepBackup



/-- A codec tree whose only slice's load updates the foreign key x through
the dependency loader. -/
def updateEscapeTree : DepBackup.BChildren :=
  .consB "a" (.sliceB (fun s => s)
    (fun _ => .update "x" (.num 5) (.ret (.num 0)))) .nilB

/-- C9 counterexample: a base-state key absent from the codec tree does not
always retain its base value — a load function may target it with update,
which writes it into the loaded accumulator and overrides the base. -/
theorem C9_update_overrides_uncovered_key :
    DepBackup.lookupB updateEscapeTree "x" = none
    ∧ DepBackup.loadBackup 10 (.obj [("x", .num 1)]) updateEscapeTree
        (.obj [("a", .num 0)]) = .ok [("x", .num 5), ("a", .num 0)]
    ∧ objGet [("x", .num 5), ("a", .num 0)] "x" ≠ objGet [("x", .num 1)] "x" :=
  ⟨rfl, rfl, by simp [objGet]⟩

/-- C9 (amended): every base-state key that is absent from the codec tree or
mapped to a missing entry, and that no top-level load program targets with
update, keeps exactly its base-state value in the result of loadBackup. -/
theorem C9_uncovered_keys_frame (fuel : Nat) (base : Obj)
    (c : DepBackup.BChildren) (store : Value) (result : Obj) (k : String)
    (hk : DepBackup.lookupB c k = none ∨ DepBackup.lookupB c k = some none)
    (hT : DepBackup.TreeAvoids k c)
    (hok : DepBackup.loadBackup fuel (.obj base) c store = .ok result) :
    objGet result k = objGet base k := by
  match fuel with
  | 0 => simp [DepBackup.loadBackup] at hok
  | fuel + 1 =>
    unfold DepBackup.loadBackup at hok
    split at hok
    · exact absurd hok (by simp)
    · rename_i ls heqL
      simp only [Except.ok.injEq] at hok
      subst hok
      have hfree : objHasKey ls.loaded k = false :=
        (DepBackup.avoids_keeps_k_out k c hk hT fuel).2.2 _ _ _ _ _ heqL rfl
      exact objGet_spreadObjs_not_right _ _ _ hfree

/-- Witness for C9_uncovered_keys_frame: a one-slice identity tree and a base
holding the uncovered key x. -/
theorem C9_uncovered_keys_frame_witness :
    (DepBackup.lookupB (DepBackup.BChildren.consB "a" copyCodec .nilB) "x" = none
      ∨ DepBackup.lookupB (DepBackup.BChildren.consB "a" copyCodec .nilB) "x" = some none)
    ∧ DepBackup.TreeAvoids "x" (DepBackup.BChildren.consB "a" copyCodec .nilB)
    ∧ DepBackup.loadBackup 10 (.obj [("x", .num 1)])
        (DepBackup.BChildren.consB "a" copyCodec .nilB) (.obj [("a", .num 0)])
        = .ok [("x", .num 1), ("a", .num 0)]
    ∧ objGet [("x", .num 1), ("a", .num 0)] "x" = objGet [("x", .num 1)] "x" :=
  ⟨Or.inl rfl, ⟨fun _ => trivial, trivial⟩, rfl,
   C9_uncovered_keys_frame 10 [("x", .num 1)]
     (DepBackup.BChildren.consB "a" copyCodec .nilB) (.obj [("a", .num 0)])
     [("x", .num 1), ("a", .num 0)] "x" (Or.inl rfl)
     ⟨fun _ => trivial, trivial⟩ rfl⟩

/-- A tree where slice a loads as undefined but sibling b then updates a
through the dependency loader. -/
def undefThenUpdateTree : DepBackup.BChildren :=
  .consB "a" (.sliceB (fun s => s) (fun _ => .ret .undef))
    (.consB "b" (.sliceB (fun s => s)
      (fun _ => .update "a" (.num 7) (.ret (.num 1)))) .nilB)

/-- C10 counterexample: a covered key whose load returns undefined does not
always map to undefined in the result — a sibling's update can replace the
undefined slot afterwards. -/
theorem C10_sibling_update_replaces_undef :
    DepBackup.loadBackup 10 (.obj [("a", .str "keep")]) undefThenUpdateTree
        (.obj [("a", .num 0), ("b", .num 0)])
      = .ok [("a", .num 7), ("b", .num 1)]
    ∧ objGet [("a", .num 7), ("b", .num 1)] "a" ≠ Value.undef :=
  ⟨rfl, by simp [objGet]⟩

/-- C10 (amended): when a covered key's slice load returns undefined at the
snapshot's stored value and no top-level load updates that key, the result of
loadBackup has an own property for the key whose value is undefined — the
base state's value is overwritten, not retained. -/
theorem C10_undef_load_overwrites (fuel : Nat) (base : Obj)
    (c : DepBackup.BChildren) (store : Value) (result : Obj) (k : String)
    (save0 : Value → Value) (load0 : Value → DepBackup.LoadProg)
    (hsl : DepBackup.lookupB c k = some (some (.sliceB save0 load0)))
    (hld : load0 (vGet store k) = .ret .undef)
    (hT : DepBackup.TreeAvoids k c)
    (hok : DepBackup.loadBackup fuel (.obj base) c store = .ok result) :
    objGet result k = .undef ∧ objHasKey result k = true := by
  match fuel with
  | 0 => simp [DepBackup.loadBackup] at hok
  | fuel + 1 =>
    unfold DepBackup.loadBackup at hok
    split at hok
    · exact absurd hok (by simp)
    · rename_i ls heqL
      simp only [Except.ok.injEq] at hok
      subst hok
      have hinv : DepBackup.UndefSlot k ls := by
        refine (DepBackup.undef_slot_preserved k c store save0 load0 hsl hld hT fuel).2.2
          _ _ _ _ heqL ?_
        exact ⟨fun hmem => absurd hmem (by simp), fun _ => ⟨rfl, by simp⟩⟩
      have hmem : k ∈ ls.loadedKeys := by
        refine ((DepBackup.loadedKeys_mono fuel).2.2 _ _ _ _ _ _ heqL).2 k ?_
        exact DepBackup.lookupB_mem_keysB c k _ hsl
      have hslot := hinv.1 hmem
      constructor
      · exact objGet_spreadObjs_all_undef _ _ _ hslot.1 hslot.2
      · rw [objHasKey_spreadObjs]
        simp [hslot.1]

/-- Witness for C10_undef_load_overwrites: a one-slice tree whose load
returns undefined over a base that held a value for the covered key. -/
theorem C10_undef_load_overwrites_witness :
    DepBackup.lookupB (DepBackup.BChildren.consB "a"
        (.sliceB (fun s => s) (fun _ => .ret .undef)) .nilB) "a"
      = some (some (.sliceB (fun s => s) (fun _ => .ret .undef)))
    ∧ DepBackup.loadBackup 10 (.obj [("a", .str "keep")])
        (DepBackup.BChildren.consB "a"
          (.sliceB (fun s => s) (fun _ => .ret .undef)) .nilB)
        (.obj [("a", .num 0)])
      = .ok [("a", .undef)]
    ∧ objGet [("a", Value.undef)] "a" = .undef
    ∧ objHasKey [("a", Value.undef)] "a" = true :=
  ⟨rfl, rfl,
   (C10_undef_load_overwrites 10 [("a", .str "keep")]
     (DepBackup.BChildren.consB "a"
       (.sliceB (fun s => s) (fun _ => .ret .undef)) .nilB)
     (.obj [("a", .num 0)]) [("a", .undef)] "a"
     (fun s => s) (fun _ => .ret .undef) rfl rfl
     ⟨fun _ => trivial, trivial⟩ rfl).1,
   (C10_undef_load_overwrites 10 [("a", .str "keep")]
     (DepBackup.BChildren.consB "a"
       (.sliceB (fun s => s) (fun _ => .ret .undef)) .nilB)
     (.obj [("a", .num 0)]) [("a", .undef)] "a"
     (fun s => s) (fun _ => .ret .undef) rfl rfl
     ⟨fun _ => trivial, trivial⟩ rfl).2⟩

/-! ## Round-trip of the dependency-loader backup engine (claim C3) -/

theorem objHasKey_append (a b : Obj) (k : String) :
    objHasKey (a ++ b) k = (objHasKey a k || objHasKey b k) := by
  induction a with
  | nil => simp [objHasKey]
  | cons kv rest ih =>
    by_cases hk : kv.1 = k
    · simp [objHasKey, hk]
    · simp [objHasKey, hk, ih]

theorem objSet_append (l : Obj) (k : String) (v : Value)
    (h : objHasKey l k = false) : objSet l k v = l ++ [(k, v)] := by
  induction l with
  | nil => simp [objSet]
  | cons kv rest ih =>
    by_cases hk : kv.1 = k
    · simp [objHasKey, hk] at h
    · simp only [objHasKey, if_neg hk] at h
      simp [objSet, hk, ih h]

theorem objGet_append_left (a b : Obj) (k : String)
    (h : objHasKey a k = true) : objGet (a ++ b) k = objGet a k := by
  induction a with
  | nil => simp [objHasKey] at h
  | cons kv rest ih =>
    by_cases hk : kv.1 = k
    · simp [objGet, hk]
    · simp only [objHasKey, if_neg hk] at h
      simp [objGet, hk, ih h]

namespace DepBackup

/-- The execution of runProg on an immediate return. -/
theorem runProg_ret_succ (fuel : Nat) (state : Value) (c : BChildren)
    (store : Value) (v : Value) (ls : LoadSt) :
    runProg (fuel + 1) state c store (.ret v) ls = .ok (v, ls) := rfl

/-- Round-trip correctness of a codec tree at the slices of one particular
state: every slice's load program, fed the slice's saved value, immediately
returns the original slice (so it does not consult the dependency loader),
and nested interfaces are round-trip correct on their sub-state. -/
def RTat (S : Value) : BChildren → Prop
  | .nilB => True
  | .missingB _ rest => RTat S rest
  | .consB key (.sliceB save load) rest =>
      load (save (vGet S key)) = .ret (vGet S key) ∧ RTat S rest
  | .consB key (.stateB sub) rest => RTat (vGet S key) sub ∧ RTat S rest

/-- Every nested interface of the tree has pairwise-distinct keys. -/
def NodupSubtrees : BChildren → Prop
  | .nilB => True
  | .missingB _ rest => NodupSubtrees rest
  | .consB _ (.sliceB _ _) rest => NodupSubtrees rest
  | .consB _ (.stateB sub) rest =>
      ((keysB sub).Nodup ∧ NodupSubtrees sub) ∧ NodupSubtrees rest

/-- The tree has pairwise-distinct keys at every level, as the JavaScript
objects it models always do. -/
def NodupB (c : BChildren) : Prop := (keysB c).Nodup ∧ NodupSubtrees c

/-- The result object agrees with the state S on every codec-covered field
of the tree, recursively through nested interfaces. -/
def AgreesB (res : Obj) (S : Value) : BChildren → Prop
  | .nilB => True
  | .missingB _ rest => AgreesB res S rest
  | .consB key (.sliceB _ _) rest =>
      objGet res key = vGet S key ∧ AgreesB res S rest
  | .consB key (.stateB sub) rest =>
      (∃ rsub, objGet res key = .obj rsub ∧ AgreesB rsub (vGet S key) sub)
        ∧ AgreesB res S rest

/-- The loaded entries a pure run of the loop produces for the given
suffix: one entry per covered key, in declaration order. -/
def EntriesFor (S : Value) : BChildren → Obj → Prop
  | .nilB, l => l = []
  | .missingB _ rest, l => EntriesFor S rest l
  | .consB key (.sliceB _ _) rest, l =>
      ∃ l', l = (key, vGet S key) :: l' ∧ EntriesFor S rest l'
  | .consB key (.stateB sub) rest, l =>
      ∃ rsub l', l = (key, .obj rsub) :: l'
        ∧ AgreesB rsub (vGet S key) sub ∧ EntriesFor S rest l'

theorem EntriesFor_keys (S : Value) :
    ∀ (c : BChildren) (l : Obj), EntriesFor S c l →
      ∀ x, x ∈ l.map Prod.fst → x ∈ keysB c
  | .nilB, l, he, x, hx => by
    rw [he] at hx
    cases hx
  | .missingB k rest, l, he, x, hx => by
    simp only [keysB, List.mem_cons]
    exact Or.inr (EntriesFor_keys S rest l he x hx)
  | .consB key (.sliceB save load) rest, l, he, x, hx => by
    obtain ⟨l', hl, he'⟩ := he
    subst hl
    simp only [keysB, List.mem_cons]
    simp only [List.map_cons, List.mem_cons] at hx
    rcases hx with hx | hx
    · exact Or.inl hx
    · exact Or.inr (EntriesFor_keys S rest l' he' x hx)
  | .consB key (.stateB sub) rest, l, he, x, hx => by
    obtain ⟨rsub, l', hl, _, he'⟩ := he
    subst hl
    simp only [keysB, List.mem_cons]
    simp only [List.map_cons, List.mem_cons] at hx
    rcases hx with hx | hx
    · exact Or.inl hx
    · exact Or.inr (EntriesFor_keys S rest l' he' x hx)

/-- Spreading a pure loaded-entry list over any base yields an object that
agrees with S on every covered field. -/
theorem EntriesFor_spread_agrees (S : Value) :
    ∀ (c : BChildren) (l : Obj) (a : Obj), EntriesFor S c l →
      (keysB c).Nodup → AgreesB (spreadObjs a l) S c
  | .nilB, l, a, he, _ => trivial
  | .missingB k rest, l, a, he, hnd => by
    exact EntriesFor_spread_agrees S rest l a he (by simpa [keysB] using hnd.of_cons)
  | .consB key (.sliceB save load) rest, l, a, he, hnd => by
    obtain ⟨l', hl, he'⟩ := he
    subst hl
    simp only [keysB, List.nodup_cons] at hnd
    have hstep : spreadObjs a ((key, vGet S key) :: l')
        = spreadObjs (objSet a key (vGet S key)) l' := by
      simp [spreadObjs, List.foldl_cons]
    rw [hstep]
    constructor
    · have hnot : objHasKey l' key = false := by
        rw [Bool.eq_false_iff]
        intro hmem
        exact hnd.1 (EntriesFor_keys S rest l' he' key
          ((objHasKey_iff_mem l' key).mp hmem))
      rw [objGet_spreadObjs_not_right _ _ _ hnot]
      exact objGet_objSet_self a key (vGet S key)
    · exact EntriesFor_spread_agrees S rest l' _ he' hnd.2
  | .consB key (.stateB sub) rest, l, a, he, hnd => by
    obtain ⟨rsub, l', hl, hag, he'⟩ := he
    subst hl
    simp only [keysB, List.nodup_cons] at hnd
    have hstep : spreadObjs a ((key, Value.obj rsub) :: l')
        = spreadObjs (objSet a key (.obj rsub)) l' := by
      simp [spreadObjs, List.foldl_cons]
    rw [hstep]
    constructor
    · refine ⟨rsub, ?_, hag⟩
      have hnot : objHasKey l' key = false := by
        rw [Bool.eq_false_iff]
        intro hmem
        exact hnd.1 (EntriesFor_keys S rest l' he' key
          ((objHasKey_iff_mem l' key).mp hmem))
      rw [objGet_spreadObjs_not_right _ _ _ hnot]
      exact objGet_objSet_self a key (.obj rsub)
    · exact EntriesFor_spread_agrees S rest l' _ he' hnd.2


/-- What createBackup stores at a covered key (the first binding wins, and
with pairwise-distinct keys it is the binding). -/
theorem createBackupAcc_get_absent (S : Value) :
    ∀ (c : BChildren) (acc : Obj) (key : String), key ∉ keysB c →
      objGet (createBackupAcc S c acc) key = objGet acc key
  | .nilB, acc, key, h => rfl
  | .missingB k rest, acc, key, h => by
    simp only [keysB, List.mem_cons] at h
    exact createBackupAcc_get_absent S rest acc key (fun hm => h (Or.inr hm))
  | .consB k (.sliceB save load) rest, acc, key, h => by
    simp only [keysB, List.mem_cons] at h
    rw [createBackupAcc, createBackupAcc_get_absent S rest _ key (fun hm => h (Or.inr hm)),
      objGet_objSet_ne _ _ _ _ (fun he => h (Or.inl he.symm))]
  | .consB k (.stateB sub) rest, acc, key, h => by
    simp only [keysB, List.mem_cons] at h
    rw [createBackupAcc, createBackupAcc_get_absent S rest _ key (fun hm => h (Or.inr hm)),
      objGet_objSet_ne _ _ _ _ (fun he => h (Or.inl he.symm))]

theorem createBackupAcc_get (S : Value) :
    ∀ (c : BChildren) (acc : Obj) (key : String) (node : BNode),
      (keysB c).Nodup → lookupB c key = some (some node) →
      objGet (createBackupAcc S c acc) key
        = (match node with
           | .sliceB save _ => save (vGet S key)
           | .stateB sub => .obj (createBackupAcc (vGet S key) sub []))
  | .nilB, acc, key, node, hnd, hl => by simp [lookupB] at hl
  | .missingB k rest, acc, key, node, hnd, hl => by
    simp only [lookupB] at hl
    split at hl
    · cases hl
    · exact createBackupAcc_get S rest acc key node (by simpa [keysB] using hnd.of_cons) hl
  | .consB k nodeHere rest, acc, key, node, hnd, hl => by
    simp only [lookupB] at hl
    simp only [keysB, List.nodup_cons] at hnd
    split at hl
    · rename_i he
      simp only [Option.some.injEq] at hl
      subst he
      cases hl
      match nodeHere with
      | .sliceB save load =>
        rw [createBackupAcc, createBackupAcc_get_absent S rest _ k hnd.1,
          objGet_objSet_self]
      | .stateB sub =>
        rw [createBackupAcc, createBackupAcc_get_absent S rest _ k hnd.1,
          objGet_objSet_self]
    · match nodeHere with
      | .sliceB save load =>
        rw [createBackupAcc]
        exact createBackupAcc_get S rest _ key node hnd.2 hl
      | .stateB sub =>
        rw [createBackupAcc]
        exact createBackupAcc_get S rest _ key node hnd.2 hl

/-- Forward execution of LoadKey on a key whose loader is missing. -/
theorem LoadKey_missing_run (g : Nat) (state : Value) (c : BChildren)
    (store : Value) (key : String) (ls : LoadSt)
    (hc : lookupB c key = some none)
    (hnk : ls.loadedKeys.contains key = false) :
    LoadKey (g + 1) state c store key ls
      = .ok ⟨ls.loaded, ls.loadedKeys ++ [key], ls.loadQueue⟩ := by
  unfold LoadKey
  rw [hnk, hc]
  simp

/-- Forward execution of LoadKey on a slice codec whose load program
returns immediately. -/
theorem LoadKey_slice_run (g : Nat) (state : Value) (c : BChildren)
    (store : Value) (key : String) (ls : LoadSt)
    (save : Value → Value) (load : Value → LoadProg) (v : Value)
    (hc : lookupB c key = some (some (.sliceB save load)))
    (hnk : ls.loadedKeys.contains key = false)
    (hnl : objGet ls.loaded key = .undef)
    (hq : ls.loadQueue = [])
    (hprog : load (vGet store key) = .ret v) :
    LoadKey (g + 2) state c store key ls
      = .ok ⟨objSet ls.loaded key v, ls.loadedKeys ++ [key], []⟩ := by
  show LoadKey (g + 1 + 1) state c store key ls = _
  unfold LoadKey
  rw [hnk, hc]
  simp only [Bool.false_eq_true, if_false]
  rw [hnl]
  dsimp only []
  rw [hq, hprog]
  simp only [List.contains, List.elem_nil, Bool.false_eq_true, if_false, List.nil_append]
  rw [runProg_ret_succ]
  simp [List.erase_cons]

/-- Forward execution of LoadKey on a nested interface whose recursive
loadBackup call succeeds. -/
theorem LoadKey_state_run (g : Nat) (state : Value) (c : BChildren)
    (store : Value) (key : String) (ls : LoadSt)
    (sub : BChildren) (result : Obj)
    (hc : lookupB c key = some (some (.stateB sub)))
    (hnk : ls.loadedKeys.contains key = false)
    (hnl : objGet ls.loaded key = .undef)
    (hq : ls.loadQueue = [])
    (hsub : loadBackup (g + 1)
        (match vGet state key with
          | Value.undef => Value.obj []
          | v => v) sub (vGet store key) = .ok result) :
    LoadKey (g + 2) state c store key ls
      = .ok ⟨objSet ls.loaded key (.obj result), ls.loadedKeys ++ [key], []⟩ := by
  show LoadKey (g + 1 + 1) state c store key ls = _
  unfold LoadKey
  rw [hnk, hc]
  simp only [Bool.false_eq_true, if_false]
  rw [hnl]
  dsimp only []
  rw [hq]
  simp only [List.contains, List.elem_nil, Bool.false_eq_true, if_false, List.nil_append]
  rw [hsub]
  simp [List.erase_cons]


theorem contains_false_iff (l : List String) (x : String) :
    l.contains x = false ↔ x ∉ l := by
  rw [Bool.eq_false_iff]
  simp

theorem lookupB_missing_self (key : String) (rest : BChildren) :
    lookupB (.missingB key rest) key = some none := by
  simp [lookupB]

theorem lookupB_cons_self (key : String) (node : BNode) (rest : BChildren) :
    lookupB (.consB key node rest) key = some (some node) := by
  simp [lookupB]

theorem lookupB_missing_ne (key k' : String) (rest : BChildren) (h : k' ≠ key) :
    lookupB (.missingB key rest) k' = lookupB rest k' := by
  simp only [lookupB, if_neg (show ¬ key = k' from fun he => h he.symm)]

theorem lookupB_cons_ne (key k' : String) (node : BNode) (rest : BChildren) (h : k' ≠ key) :
    lookupB (.consB key node rest) k' = lookupB rest k' := by
  simp only [lookupB, if_neg (show ¬ key = k' from fun he => h he.symm)]

/-- A pure run of the loadBackup key loop: when the suffix's slice loads all
return immediately with the round-tripped slice values, the loop succeeds
(given enough fuel) and appends exactly the expected entries, in order. -/
theorem loadLoop_pure (n : Nat) : ∀ (c : BChildren) (S : Value), (keysB c).Nodup →
    ∀ (rem : BChildren), sizeOf rem ≤ n → ∀ (state : Value) (ls : LoadSt),
      (∀ key, key ∈ keysB rem → lookupB c key = lookupB rem key) →
      (keysB rem).Nodup →
      RTat S rem →
      NodupSubtrees rem →
      (∀ x, x ∈ keysB rem → ls.loadedKeys.contains x = false) →
      (∀ x, x ∈ keysB rem → objHasKey ls.loaded x = false) →
      ls.loadQueue = [] →
      ∃ (m : Nat) (newList : Obj),
        EntriesFor S rem newList ∧
        ∀ fuel, m ≤ fuel →
          loadLoop fuel state c (.obj (createBackup S c)) rem ls
            = .ok ⟨ls.loaded ++ newList, ls.loadedKeys ++ keysB rem, []⟩ := by
  induction n using Nat.strong_induction_on with
  | _ n ih =>
    intro c S hndC rem hsize state ls hHL hnd hrt hnsub hks hkl hq
    match rem with
    | .nilB =>
      refine ⟨1, [], rfl, ?_⟩
      intro fuel hf
      match fuel, hf with
      | g + 1, _ =>
        unfold loadLoop
        obtain ⟨lsl, lsk, lsq⟩ := ls
        simp only [] at hq
        subst hq
        simp [keysB]
    | .missingB key rest =>
      have hkey : key ∈ keysB (BChildren.missingB key rest) := by simp [keysB]
      have hndr : (keysB rest).Nodup := by
        simpa [keysB] using hnd.of_cons
      have hkne : key ∉ keysB rest := by
        simpa [keysB] using (List.nodup_cons.mp (by simpa [keysB] using hnd)).1
      have hsp : sizeOf (BChildren.missingB key rest) = 1 + sizeOf key + sizeOf rest := by
        simp
      have hsizer : sizeOf rest ≤ n - 1 := by omega
      have hc : lookupB c key = some none := by
        rw [hHL key hkey]
        exact lookupB_missing_self key rest
      set ls1 : LoadSt := ⟨ls.loaded, ls.loadedKeys ++ [key], ls.loadQueue⟩ with hls1
      obtain ⟨m, newList, hE, hrun⟩ :=
        ih (n - 1) (by omega) c S hndC rest hsizer state ls1
          (by
            intro k' hk'
            rw [hHL k' (by simp [keysB, hk'])]
            exact lookupB_missing_ne key k' rest (fun he => hkne (he ▸ hk')))
          hndr hrt hnsub
          (by
            intro x hx
            rw [contains_false_iff]
            simp only [hls1, List.mem_append]
            rintro (hm | hm)
            · exact (contains_false_iff _ _).mp (hks x (by simp [keysB, hx])) hm
            · have hxk : x = key := by simpa using hm
              exact hkne (hxk ▸ hx))
          (by
            intro x hx
            exact hkl x (by simp [keysB, hx]))
          hq
      refine ⟨m + 2, newList, hE, ?_⟩
      intro fuel hf
      match fuel, hf with
      | g + 2, hf =>
        show loadLoop (g + 1 + 1) state c (.obj (createBackup S c)) _ ls = _
        unfold loadLoop
        dsimp only []
        rw [hks key hkey]
        simp only [Bool.false_eq_true, if_false]
        rw [LoadKey_missing_run g state c _ key ls hc (hks key hkey)]
        dsimp only []
        rw [hrun (g + 1) (by omega)]
        simp [hls1, keysB, List.append_assoc]
    | .consB key (.sliceB save load) rest =>
      have hkey : key ∈ keysB (BChildren.consB key (.sliceB save load) rest) := by
        simp [keysB]
      have hndr : (keysB rest).Nodup := by
        simpa [keysB] using hnd.of_cons
      have hkne : key ∉ keysB rest := by
        simpa [keysB] using (List.nodup_cons.mp (by simpa [keysB] using hnd)).1
      have hsp : sizeOf (BChildren.consB key (BNode.sliceB save load) rest)
          = 1 + sizeOf key + sizeOf (BNode.sliceB save load) + sizeOf rest := by
        simp
      have hsizer : sizeOf rest ≤ n - 1 := by omega
      have hc : lookupB c key = some (some (.sliceB save load)) := by
        rw [hHL key hkey]
        exact lookupB_cons_self key _ rest
      have hstore : vGet (.obj (createBackup S c)) key = save (vGet S key) := by
        show objGet (createBackup S c) key = _
        exact createBackupAcc_get S c [] key _ hndC hc
      have hprog : load (vGet (.obj (createBackup S c)) key) = .ret (vGet S key) := by
        rw [hstore]
        exact hrt.1
      have hundef : objGet ls.loaded key = .undef :=
        objHasKey_false_objGet _ _ (hkl key hkey)
      set v := vGet S key with hv
      set ls1 : LoadSt := ⟨ls.loaded ++ [(key, v)], ls.loadedKeys ++ [key], []⟩ with hls1
      obtain ⟨m, newList, hE, hrun⟩ :=
        ih (n - 1) (by omega) c S hndC rest hsizer state ls1
          (by
            intro k' hk'
            rw [hHL k' (by simp [keysB, hk'])]
            exact lookupB_cons_ne key k' _ rest (fun he => hkne (he ▸ hk')))
          hndr hrt.2 hnsub
          (by
            intro x hx
            rw [contains_false_iff]
            simp only [hls1, List.mem_append]
            rintro (hm | hm)
            · exact (contains_false_iff _ _).mp (hks x (by simp [keysB, hx])) hm
            · have hxk : x = key := by simpa using hm
              exact hkne (hxk ▸ hx))
          (by
            intro x hx
            simp only [hls1, objHasKey_append]
            rw [hkl x (by simp [keysB, hx])]
            have : objHasKey [(key, v)] x = false := by
              have hne : key ≠ x := fun he => hkne (he ▸ hx)
              simp [objHasKey, hne]
            simp [this])
          rfl
      refine ⟨m + 3, (key, v) :: newList, ⟨newList, rfl, hE⟩, ?_⟩
      intro fuel hf
      match fuel, hf with
      | g + 3, hf =>
        show loadLoop (g + 2 + 1) state c (.obj (createBackup S c)) _ ls = _
        unfold loadLoop
        dsimp only []
        rw [hks key hkey]
        simp only [Bool.false_eq_true, if_false]
        rw [LoadKey_slice_run g state c _ key ls save load v hc (hks key hkey)
          hundef hq (hv ▸ hprog)]
        dsimp only []
        rw [objSet_append _ _ _ (hkl key hkey)]
        rw [hrun (g + 2) (by omega)]
        simp [hls1, keysB, List.append_assoc]
    | .consB key (.stateB sub) rest =>
      have hkey : key ∈ keysB (BChildren.consB key (.stateB sub) rest) := by
        simp [keysB]
      have hndr : (keysB rest).Nodup := by
        simpa [keysB] using hnd.of_cons
      have hkne : key ∉ keysB rest := by
        simpa [keysB] using (List.nodup_cons.mp (by simpa [keysB] using hnd)).1
      have hsp1 : sizeOf (BChildren.consB key (BNode.stateB sub) rest)
          = 1 + sizeOf key + sizeOf (BNode.stateB sub) + sizeOf rest := by
        simp
      have hsp2 : sizeOf (BNode.stateB sub) = 1 + sizeOf sub := by
        simp
      have hsizer : sizeOf rest ≤ n - 1 := by omega
      have hsizes : sizeOf sub < n := by omega
      have hc : lookupB c key = some (some (.stateB sub)) := by
        rw [hHL key hkey]
        exact lookupB_cons_self key _ rest
      have hstore : vGet (.obj (createBackup S c)) key
          = .obj (createBackup (vGet S key) sub) := by
        show objGet (createBackup S c) key = _
        exact createBackupAcc_get S c [] key _ hndC hc
      have hundef : objGet ls.loaded key = .undef :=
        objHasKey_false_objGet _ _ (hkl key hkey)
      obtain ⟨ms, subList, hEs, hruns⟩ :=
        ih (sizeOf sub) hsizes sub (vGet S key) hnsub.1.1 sub (Nat.le_refl _)
          (match vGet state key with
            | Value.undef => Value.obj []
            | v => v) ⟨[], [], []⟩
          (fun _ _ => rfl) hnsub.1.1 hrt.1 hnsub.1.2
          (fun x _ => rfl) (fun x _ => rfl) rfl
      have hsubrun : ∀ g, ms ≤ g →
          loadBackup (g + 1)
            (match vGet state key with
              | Value.undef => Value.obj []
              | v => v) sub (vGet (.obj (createBackup S c)) key)
          = .ok (spreadObjs (toFields (match vGet state key with
              | Value.undef => Value.obj []
              | v => v)) subList) := by
        intro g hg
        rw [hstore]
        unfold loadBackup
        rw [hruns g hg]
        simp
      have hag : AgreesB (spreadObjs (toFields (match vGet state key with
            | Value.undef => Value.obj []
            | v => v)) subList) (vGet S key) sub :=
        EntriesFor_spread_agrees (vGet S key) sub subList _ hEs hnsub.1.1
      set res_sub := spreadObjs (toFields (match vGet state key with
          | Value.undef => Value.obj []
          | v => v)) subList with hres
      set ls1 : LoadSt := ⟨ls.loaded ++ [(key, Value.obj res_sub)], ls.loadedKeys ++ [key], []⟩
        with hls1
      obtain ⟨m, newList, hE, hrun⟩ :=
        ih (n - 1) (by omega) c S hndC rest hsizer state ls1
          (by
            intro k' hk'
            rw [hHL k' (by simp [keysB, hk'])]
            exact lookupB_cons_ne key k' _ rest (fun he => hkne (he ▸ hk')))
          hndr hrt.2 hnsub.2
          (by
            intro x hx
            rw [contains_false_iff]
            simp only [hls1, List.mem_append]
            rintro (hm | hm)
            · exact (contains_false_iff _ _).mp (hks x (by simp [keysB, hx])) hm
            · have hxk : x = key := by simpa using hm
              exact hkne (hxk ▸ hx))
          (by
            intro x hx
            simp only [hls1, objHasKey_append]
            rw [hkl x (by simp [keysB, hx])]
            have : objHasKey [(key, Value.obj res_sub)] x = false := by
              have hne : key ≠ x := fun he => hkne (he ▸ hx)
              simp [objHasKey, hne]
            simp [this])
          rfl
      refine ⟨max ms m + 3, (key, Value.obj res_sub) :: newList,
        ⟨res_sub, newList, rfl, hag, hE⟩, ?_⟩
      intro fuel hf
      match fuel, hf with
      | g + 3, hf =>
        show loadLoop (g + 2 + 1) state c (.obj (createBackup S c)) _ ls = _
        unfold loadLoop
        dsimp only []
        rw [hks key hkey]
        simp only [Bool.false_eq_true, if_false]
        rw [LoadKey_state_run g state c _ key ls sub res_sub hc (hks key hkey)
          hundef hq (hsubrun g (by omega))]
        dsimp only []
        rw [objSet_append _ _ _ (hkl key hkey)]
        rw [hrun (g + 2) (by omega)]
        simp [hls1, keysB, List.append_assoc]

end DepBackup



/-- C3: for every base state and codec tree with pairwise-distinct keys whose
slice codecs round-trip the relevant slices of S without consulting the
dependency loader, loadBackup applied to createBackup of S terminates (for
sufficient fuel, standing in for the source's implicit termination) and
reproduces every codec-covered field of S, through nested codec trees. -/
theorem C3_roundtrip (base S : Value) (c : DepBackup.BChildren)
    (hnd : DepBackup.NodupB c) (hrt : DepBackup.RTat S c) :
    ∃ (n : Nat) (res : Obj),
      (∀ fuel, n ≤ fuel →
        DepBackup.loadBackup fuel base c (.obj (DepBackup.createBackup S c)) = .ok res)
      ∧ DepBackup.AgreesB res S c := by
  obtain ⟨m, newList, hE, hrun⟩ :=
    DepBackup.loadLoop_pure (sizeOf c) c S hnd.1 c (Nat.le_refl _) base ⟨[], [], []⟩
      (fun _ _ => rfl) hnd.1 hrt hnd.2 (fun _ _ => rfl) (fun _ _ => rfl) rfl
  refine ⟨m + 1, spreadObjs (toFields base) newList, ?_, ?_⟩
  · intro fuel hf
    match fuel, hf with
    | g + 1, hf =>
      unfold DepBackup.loadBackup
      rw [hrun g (by omega)]
      simp
  · exact DepBackup.EntriesFor_spread_agrees S c newList _ hE hnd.1

/-- A two-level codec tree for the round-trip witness: a top slice plus a
nested interface with one slice. -/
def nestedDemoTree : DepBackup.BChildren :=
  .consB "a" (.sliceB (fun v => v) (fun d => .ret d))
    (.consB "b" (.stateB (.consB "x" (.sliceB (fun v => v) (fun d => .ret d)) .nilB))
      .nilB)

/-- The state the round-trip witness starts from. -/
def nestedDemoState : Value :=
  .obj [("a", .num 1), ("b", .obj [("x", .str "y")])]

/-- Witness for C3_roundtrip: the two-level identity tree round-trips the
demo state. -/
theorem C3_roundtrip_witness :
    DepBackup.NodupB nestedDemoTree
    ∧ DepBackup.RTat nestedDemoState nestedDemoTree
    ∧ ∃ (n : Nat) (res : Obj),
      (∀ fuel, n ≤ fuel →
        DepBackup.loadBackup fuel (.obj []) nestedDemoTree
          (.obj (DepBackup.createBackup nestedDemoState nestedDemoTree)) = .ok res)
      ∧ DepBackup.AgreesB res nestedDemoState nestedDemoTree :=
  ⟨⟨by decide, ⟨by decide, trivial⟩, trivial⟩,
   ⟨rfl, ⟨rfl, trivial⟩, trivial⟩,
   C3_roundtrip (.obj []) nestedDemoState nestedDemoTree
     ⟨by decide, ⟨by decide, trivial⟩, trivial⟩
     ⟨rfl, ⟨rfl, trivial⟩, trivial⟩⟩


/-! ## Plain backup engine lemmas for the undo/redo inverse law (claim C4) -/

theorem objSet_keys_mem (l : Obj) (k : String) (v : Value) (x : String) :
    x ∈ (objSet l k v).map Prod.fst ↔ x ∈ l.map Prod.fst ∨ x = k := by
  induction l with
  | nil => simp [objSet]
  | cons kv rest ih =>
    by_cases hk : kv.1 = k
    · simp only [objSet, if_pos hk, List.map_cons, List.mem_cons]
      rw [hk]
      tauto
    · simp only [objSet, if_neg hk, List.map_cons, List.mem_cons, ih]
      tauto

theorem objSet_keys_nodup (l : Obj) (k : String) (v : Value)
    (h : (l.map Prod.fst).Nodup) : ((objSet l k v).map Prod.fst).Nodup := by
  induction l with
  | nil => simp [objSet]
  | cons kv rest ih =>
    simp only [List.map_cons, List.nodup_cons] at h
    by_cases hk : kv.1 = k
    · simp only [objSet, if_pos hk, List.map_cons, List.nodup_cons]
      refine ⟨?_, h.2⟩
      rw [← hk]
      exact h.1
    · simp only [objSet, if_neg hk, List.map_cons, List.nodup_cons]
      refine ⟨?_, ih h.2⟩
      rw [objSet_keys_mem]
      rintro (hm | hm)
      · exact h.1 hm
      · exact hk hm

namespace SimpleBackup

/-- Flat top level: every entry of the interface is a slice codec or a
missing loader (no nested interfaces). -/
def FlatS : SChildren → Prop
  | .nilS => True
  | .missingS _ rest => FlatS rest
  | .consS _ (.sliceS _ _) rest => FlatS rest
  | .consS _ (.stateS _) _ => False

/-- No entry of the interface binds the key k to a loader node. -/
def NoNodeAt (k : String) : SChildren → Prop
  | .nilS => True
  | .missingS _ rest => NoNodeAt k rest
  | .consS k' _ rest => k' ≠ k ∧ NoNodeAt k rest

theorem lookupS_mem_keysS : ∀ (c : SChildren) (k : String) (o : Option SNode),
    lookupS c k = some o → k ∈ keysS c
  | .nilS, k, o, h => by simp [lookupS] at h
  | .missingS k' rest, k, o, h => by
    simp only [lookupS] at h
    split at h
    · rename_i he
      simp [keysS, he]
    · simp [keysS, lookupS_mem_keysS rest k o h]
  | .consS k' node rest, k, o, h => by
    simp only [lookupS] at h
    split at h
    · rename_i he
      simp [keysS, he]
    · simp [keysS, lookupS_mem_keysS rest k o h]

theorem flat_cases (k : String) :
    ∀ (c : SChildren), FlatS c → (keysS c).Nodup →
      NoNodeAt k c ∨ ∃ sv ld, lookupS c k = some (some (.sliceS sv ld))
  | .nilS, _, _ => Or.inl trivial
  | .missingS k' rest, hf, hnd => by
    simp only [keysS, List.nodup_cons] at hnd
    rcases flat_cases k rest hf hnd.2 with h | ⟨sv, ld, h⟩
    · exact Or.inl h
    · by_cases hk : k' = k
      · subst hk
        exact absurd (lookupS_mem_keysS rest k' _ h) hnd.1
      · exact Or.inr ⟨sv, ld, by simp only [lookupS, if_neg hk]; exact h⟩
  | .consS k' (.sliceS sv' ld') rest, hf, hnd => by
    by_cases hk : k' = k
    · subst hk
      exact Or.inr ⟨sv', ld', by simp [lookupS]⟩
    · simp only [keysS, List.nodup_cons] at hnd
      rcases flat_cases k rest hf hnd.2 with h | ⟨sv, ld, h⟩
      · exact Or.inl ⟨hk, h⟩
      · exact Or.inr ⟨sv, ld, by simp only [lookupS, if_neg hk]; exact h⟩
  | .consS _ (.stateS _) _, hf, _ => hf.elim

end SimpleBackup

namespace SimpleBackup

theorem not_mem_keysS_NoNodeAt (k : String) :
    ∀ (c : SChildren), k ∉ keysS c → NoNodeAt k c
  | .nilS, _ => trivial
  | .missingS k' rest, h => by
    simp only [keysS, List.mem_cons, not_or] at h
    exact not_mem_keysS_NoNodeAt k rest h.2
  | .consS k' _ rest, h => by
    simp only [keysS, List.mem_cons, not_or] at h
    exact ⟨fun he => h.1 he.symm, not_mem_keysS_NoNodeAt k rest h.2⟩

theorem loadAcc_hasKey_uncovered (state store : Value) (k : String) :
    ∀ (c : SChildren) (acc : Obj), NoNodeAt k c →
      objHasKey (loadAcc state store c acc) k = objHasKey acc k
  | .nilS, acc, _ => rfl
  | .missingS _ rest, acc, h => loadAcc_hasKey_uncovered state store k rest acc h
  | .consS key (.sliceS sv ld) rest, acc, h => by
    simp only [loadAcc]
    rw [loadAcc_hasKey_uncovered state store k rest _ h.2]
    exact objHasKey_objSet_ne acc key k _ h.1
  | .consS key (.stateS sub) rest, acc, h => by
    simp only [loadAcc]
    rw [loadAcc_hasKey_uncovered state store k rest _ h.2]
    exact objHasKey_objSet_ne acc key k _ h.1

theorem loadAcc_get_uncovered (state store : Value) (k : String) :
    ∀ (c : SChildren) (acc : Obj), NoNodeAt k c →
      objGet (loadAcc state store c acc) k = objGet acc k
  | .nilS, acc, _ => rfl
  | .missingS _ rest, acc, h => loadAcc_get_uncovered state store k rest acc h
  | .consS key (.sliceS sv ld) rest, acc, h => by
    simp only [loadAcc]
    rw [loadAcc_get_uncovered state store k rest _ h.2]
    exact objGet_objSet_ne acc key k _ h.1
  | .consS key (.stateS sub) rest, acc, h => by
    simp only [loadAcc]
    rw [loadAcc_get_uncovered state store k rest _ h.2]
    exact objGet_objSet_ne acc key k _ h.1

theorem loadAcc_hasKey_mono (state store : Value) (k : String) :
    ∀ (c : SChildren) (acc : Obj), objHasKey acc k = true →
      objHasKey (loadAcc state store c acc) k = true
  | .nilS, acc, h => h
  | .missingS _ rest, acc, h => loadAcc_hasKey_mono state store k rest acc h
  | .consS key (.sliceS sv ld) rest, acc, h => by
    simp only [loadAcc]
    exact loadAcc_hasKey_mono state store k rest _ (objHasKey_objSet_mono acc k key _ h)
  | .consS key (.stateS sub) rest, acc, h => by
    simp only [loadAcc]
    exact loadAcc_hasKey_mono state store k rest _ (objHasKey_objSet_mono acc k key _ h)

theorem loadAcc_hasKey_covered (state store : Value) (k : String) :
    ∀ (c : SChildren) (acc : Obj) (node : SNode),
      lookupS c k = some (some node) →
      objHasKey (loadAcc state store c acc) k = true
  | .nilS, acc, node, h => by simp [lookupS] at h
  | .missingS k' rest, acc, node, h => by
    simp only [lookupS] at h
    split at h
    · exact absurd h (by simp)
    · exact loadAcc_hasKey_covered state store k rest acc node h
  | .consS k' nd rest, acc, node, h => by
    simp only [lookupS] at h
    by_cases hk : k' = k
    · subst hk
      cases nd with
      | sliceS sv ld =>
        simp only [loadAcc]
        exact loadAcc_hasKey_mono state store k' rest _
          (objHasKey_objSet_self acc k' _)
      | stateS sub =>
        simp only [loadAcc]
        exact loadAcc_hasKey_mono state store k' rest _
          (objHasKey_objSet_self acc k' _)
    · rw [if_neg hk] at h
      cases nd with
      | sliceS sv ld =>
        simp only [loadAcc]
        exact loadAcc_hasKey_covered state store k rest _ node h
      | stateS sub =>
        simp only [loadAcc]
        exact loadAcc_hasKey_covered state store k rest _ node h

theorem loadAcc_keys_nodup (state store : Value) :
    ∀ (c : SChildren) (acc : Obj), (acc.map Prod.fst).Nodup →
      ((loadAcc state store c acc).map Prod.fst).Nodup
  | .nilS, acc, h => h
  | .missingS _ rest, acc, h => loadAcc_keys_nodup state store rest acc h
  | .consS key (.sliceS sv ld) rest, acc, h => by
    simp only [loadAcc]
    exact loadAcc_keys_nodup state store rest _ (objSet_keys_nodup acc key _ h)
  | .consS key (.stateS sub) rest, acc, h => by
    simp only [loadAcc]
    exact loadAcc_keys_nodup state store rest _ (objSet_keys_nodup acc key _ h)

theorem loadAcc_get_covered (state store : Value) (k : String) (sv ld : Value → Value) :
    ∀ (c : SChildren) (acc : Obj), (keysS c).Nodup →
      lookupS c k = some (some (.sliceS sv ld)) →
      objGet (loadAcc state store c acc) k = ld (vGet store k)
  | .nilS, acc, _, h => by simp [lookupS] at h
  | .missingS k' rest, acc, hnd, h => by
    simp only [lookupS] at h
    split at h
    · exact absurd h (by simp)
    · exact loadAcc_get_covered state store k sv ld rest acc
        (by simpa [keysS] using hnd.of_cons) h
  | .consS k' nd rest, acc, hnd, h => by
    simp only [lookupS] at h
    simp only [keysS, List.nodup_cons] at hnd
    by_cases hk : k' = k
    · subst hk
      rw [if_pos rfl] at h
      cases nd with
      | sliceS sv' ld' =>
        have hv : sv' = sv ∧ ld' = ld := by
          injection h with h1
          injection h1 with h2
          injection h2 with h3 h4
          exact ⟨h3, h4⟩
        simp only [loadAcc]
        rw [loadAcc_get_uncovered state store k' rest _
          (not_mem_keysS_NoNodeAt k' rest hnd.1)]
        rw [objGet_objSet_self, hv.2]
      | stateS sub =>
        exact absurd h (by simp)
    · rw [if_neg hk] at h
      cases nd with
      | sliceS sv' ld' =>
        simp only [loadAcc]
        exact loadAcc_get_covered state store k sv ld rest _ hnd.2 h
      | stateS sub =>
        simp only [loadAcc]
        exact loadAcc_get_covered state store k sv ld rest _ hnd.2 h

theorem loadBackup_get_uncovered (state store : Value) (c : SChildren) (k : String)
    (h : NoNodeAt k c) :
    objGet (loadBackup state c store) k = objGet (toFields state) k := by
  unfold loadBackup
  apply objGet_spreadObjs_not_right
  rw [loadAcc_hasKey_uncovered state store k c [] h]
  rfl

theorem loadBackup_get_covered (state store : Value) (c : SChildren) (k : String)
    (sv ld : Value → Value) (hnd : (keysS c).Nodup)
    (h : lookupS c k = some (some (.sliceS sv ld))) :
    objGet (loadBackup state c store) k = ld (vGet store k) := by
  unfold loadBackup
  rw [objGet_spreadObjs _ _ _ (loadAcc_keys_nodup state store c [] (by simp))]
  rw [loadAcc_hasKey_covered state store k c [] _ h]
  simp only [if_true]
  exact loadAcc_get_covered state store k sv ld c [] hnd h

theorem createBackupAcc_get_uncov (state : Value) (k : String) :
    ∀ (c : SChildren) (acc : Obj), NoNodeAt k c →
      objGet (createBackupAcc state c acc) k = objGet acc k
  | .nilS, acc, _ => rfl
  | .missingS _ rest, acc, h => createBackupAcc_get_uncov state k rest acc h
  | .consS key (.sliceS sv ld) rest, acc, h => by
    simp only [createBackupAcc]
    rw [createBackupAcc_get_uncov state k rest _ h.2]
    exact objGet_objSet_ne acc key k _ h.1
  | .consS key (.stateS sub) rest, acc, h => by
    simp only [createBackupAcc]
    rw [createBackupAcc_get_uncov state k rest _ h.2]
    exact objGet_objSet_ne acc key k _ h.1

theorem createBackupAcc_get_cov (state : Value) (k : String) (sv ld : Value → Value) :
    ∀ (c : SChildren) (acc : Obj), (keysS c).Nodup →
      lookupS c k = some (some (.sliceS sv ld)) →
      objGet (createBackupAcc state c acc) k = sv (vGet state k)
  | .nilS, acc, _, h => by simp [lookupS] at h
  | .missingS k' rest, acc, hnd, h => by
    simp only [lookupS] at h
    split at h
    · exact absurd h (by simp)
    · exact createBackupAcc_get_cov state k sv ld rest acc
        (by simpa [keysS] using hnd.of_cons) h
  | .consS k' nd rest, acc, hnd, h => by
    simp only [lookupS] at h
    simp only [keysS, List.nodup_cons] at hnd
    by_cases hk : k' = k
    · subst hk
      rw [if_pos rfl] at h
      cases nd with
      | sliceS sv' ld' =>
        have hv : sv' = sv ∧ ld' = ld := by
          injection h with h1
          injection h1 with h2
          injection h2 with h3 h4
          exact ⟨h3, h4⟩
        simp only [createBackupAcc]
        rw [createBackupAcc_get_uncov state k' rest _
          (not_mem_keysS_NoNodeAt k' rest hnd.1)]
        rw [objGet_objSet_self, hv.1]
      | stateS sub =>
        exact absurd h (by simp)
    · rw [if_neg hk] at h
      cases nd with
      | sliceS sv' ld' =>
        simp only [createBackupAcc]
        exact createBackupAcc_get_cov state k sv ld rest _ hnd.2 h
      | stateS sub =>
        simp only [createBackupAcc]
        exact createBackupAcc_get_cov state k sv ld rest _ hnd.2 h

theorem createBackup_get_cov (state : Value) (c : SChildren) (k : String)
    (sv ld : Value → Value) (hnd : (keysS c).Nodup)
    (h : lookupS c k = some (some (.sliceS sv ld))) :
    objGet (createBackup state c) k = sv (vGet state k) :=
  createBackupAcc_get_cov state k sv ld c [] hnd h

end SimpleBackup

/-! ## Chain predicates and phase invariants for the undo/redo inverse law -/

/-- The history list is a chain of diffs between consecutive presents,
newest first, starting from p. -/
inductive PChain (prim : DiffPrim Δ) : Obj → List Δ → Prop
  | nil (p : Obj) : PChain prim p []
  | cons (p p' : Obj) (hs : List Δ) :
      PChain prim p' hs → PChain prim p (prim.diff p p' :: hs)

/-- The future list is a chain of reversed diffs leading from the current
present p back up to the pre-undo present pTop. -/
inductive FTop (prim : DiffPrim Δ) : Obj → Obj → List Δ → Prop
  | nil (p : Obj) : FTop prim p p []
  | cons (pTop pUp p : Obj) (fs : List Δ) :
      FTop prim pTop pUp fs →
      FTop prim pTop p (prim.reverse (prim.diff pUp p) :: fs)

theorem PChain_take {Δ : Type} (prim : DiffPrim Δ) (p : Obj) (hs : List Δ)
    (h : PChain prim p hs) : ∀ l, PChain prim p (hs.take l) := by
  induction h with
  | nil p =>
    intro l
    rw [List.take_nil]
    exact PChain.nil p
  | cons p p' hs hch ih =>
    intro l
    cases l with
    | zero => exact PChain.nil p
    | succ l =>
      rw [List.take_succ_cons]
      exact PChain.cons p p' _ (ih l)

/-- After a moment-recording action: present caches the backup of live, the
history is a diff chain from it, and future is empty. -/
def MomentInv (prim : DiffPrim Δ) (c : SimpleBackup.SChildren) (e : Envelope Δ) : Prop :=
  e.present = some (SimpleBackup.createBackup (.obj e.live) c)
    ∧ PChain prim (SimpleBackup.createBackup (.obj e.live) c) e.history
    ∧ e.future = []

/-- Every codec-covered key of the live record holds the load of the
corresponding slice of p. -/
def CovLive (c : SimpleBackup.SChildren) (live p : Obj) : Prop :=
  ∀ k sv ld, SimpleBackup.lookupS c k = some (some (.sliceS sv ld)) →
    objGet live k = ld (vGet (.obj p) k)

/-- Mid-phase invariant for the redo phase: some present p, future chains up
to pTop, uncovered live keys agree with the pre-undo live record live0, and
live is either untouched or fully reloaded from p. -/
def MidInv (prim : DiffPrim Δ) (c : SimpleBackup.SChildren) (live0 pTop : Obj)
    (e : Envelope Δ) : Prop :=
  ∃ p, e.present = some p ∧ FTop prim pTop p e.future
    ∧ (∀ k, SimpleBackup.NoNodeAt k c → objGet e.live k = objGet live0 k)
    ∧ (e.live = live0 ∨ CovLive c e.live p)

/-- Undo-phase invariant: the mid-phase data plus the remaining history chain
from the current present. -/
def UndoInv (prim : DiffPrim Δ) (c : SimpleBackup.SChildren) (live0 pTop : Obj)
    (e : Envelope Δ) : Prop :=
  ∃ p, e.present = some p ∧ PChain prim p e.history ∧ FTop prim pTop p e.future
    ∧ (∀ k, SimpleBackup.NoNodeAt k c → objGet e.live k = objGet live0 k)
    ∧ (e.live = live0 ∨ CovLive c e.live p)

theorem UndoInv_MidInv {Δ : Type} (prim : DiffPrim Δ) (c : SimpleBackup.SChildren)
    (live0 pTop : Obj) (e : Envelope Δ) (h : UndoInv prim c live0 pTop e) :
    MidInv prim c live0 pTop e := by
  obtain ⟨p, hp, _, hft, hfr, hcv⟩ := h
  exact ⟨p, hp, hft, hfr, hcv⟩

/-- One dispatch of the undoable reducer, as a function of the envelope. -/
def stepUR (prim : DiffPrim Δ) (reducer : Option Obj → String → Obj)
    (c : SimpleBackup.SChildren) (limit : Option Nat) (a : String)
    (e : Envelope Δ) : Envelope Δ :=
  undoableReducer prim reducer c limit (some e) a

theorem migrateStep_sentinel {Δ : Type} (reducer : Option Obj → String → Obj)
    (e : Envelope Δ) (a : String) (hs : reducer (some e.live) a = e.live) :
    migrateStep reducer (some e) a = e := by
  have h : migrateStep reducer (some e) a =
      ⟨reducer (some e.live) a, e.history, e.present, e.future⟩ := rfl
  rw [h, hs]

theorem undoableReducer_undo {Δ : Type} (prim : DiffPrim Δ)
    (reducer : Option Obj → String → Obj) (c : SimpleBackup.SChildren)
    (limit : Option Nat) (e : Envelope Δ)
    (hs : reducer (some e.live) undoType = e.live) :
    undoableReducer prim reducer c limit (some e) undoType =
      restoreMoment prim c e 1 := by
  unfold undoableReducer
  rw [strContains_undo_false]
  simp only [Option.isNone_some, Bool.or_self, Bool.false_eq_true, if_false, if_pos rfl,
    if_true]
  rw [migrateStep_sentinel reducer e undoType hs]

theorem undoableReducer_redo {Δ : Type} (prim : DiffPrim Δ)
    (reducer : Option Obj → String → Obj) (c : SimpleBackup.SChildren)
    (limit : Option Nat) (e : Envelope Δ)
    (hs : reducer (some e.live) redoType = e.live) :
    undoableReducer prim reducer c limit (some e) redoType =
      restoreMoment prim c e (-1) := by
  unfold undoableReducer
  rw [strContains_redo_false]
  simp only [Option.isNone_some, Bool.or_self, Bool.false_eq_true, if_false]
  simp only [if_true]
  rw [migrateStep_sentinel reducer e redoType hs]
  rw [if_neg (by decide : ¬ (redoType = undoType))]

theorem undoableReducer_marker {Δ : Type} (prim : DiffPrim Δ)
    (reducer : Option Obj → String → Obj) (c : SimpleBackup.SChildren)
    (limit : Option Nat) (s : Option (Envelope Δ)) (a : String)
    (hm : strContains a undoableMarker = true) :
    undoableReducer prim reducer c limit s a =
      saveMoment prim c limit (migrateStep reducer s a) := by
  have hu : ¬ (a = undoType) := by
    intro he
    rw [he, strContains_undo_false] at hm
    exact absurd hm (by simp)
  have hr : ¬ (a = redoType) := by
    intro he
    rw [he, strContains_redo_false] at hm
    exact absurd hm (by simp)
  have ha : ¬ (a = applyType) := by
    intro he
    rw [he, strContains_apply_false] at hm
    exact absurd hm (by simp)
  unfold undoableReducer
  rw [hm]
  simp only [Bool.true_or, if_true, if_neg hu, if_neg hr, if_neg ha]

theorem restoreMoment_undo_step {Δ : Type} (prim : DiffPrim Δ)
    (c : SimpleBackup.SChildren) (e : Envelope Δ) (p : Obj) (d : Δ) (hs : List Δ)
    (hp : e.present = some p) (hh : e.history = d :: hs) :
    restoreMoment prim c e 1 =
      { live := SimpleBackup.loadBackup (.obj e.live) c (.obj (prim.patch p d)),
        history := hs,
        present := some (prim.patch p d),
        future := prim.reverse d :: e.future } := by
  unfold restoreMoment
  rw [if_neg (by decide : ¬ ((1 : Int) = 0)), hp]
  simp only [hh, restoreWithRewind]
  norm_num

theorem restoreMoment_redo_step {Δ : Type} (prim : DiffPrim Δ)
    (c : SimpleBackup.SChildren) (e : Envelope Δ) (p : Obj) (f : Δ) (fs : List Δ)
    (hp : e.present = some p) (hf : e.future = f :: fs) :
    restoreMoment prim c e (-1) =
      { live := SimpleBackup.loadBackup (.obj e.live) c (.obj (prim.patch p f)),
        history := prim.reverse f :: e.history,
        present := some (prim.patch p f),
        future := fs } := by
  unfold restoreMoment
  rw [if_neg (by decide : ¬ ((-1 : Int) = 0)), hp]
  simp only [hf, restoreWithRewind]
  norm_num

theorem saveMoment_MomentInv {Δ : Type} (prim : DiffPrim Δ)
    (c : SimpleBackup.SChildren) (limit : Option Nat) (st : Envelope Δ)
    (h : (st.present = none ∧ st.history = [])
      ∨ ∃ p, st.present = some p ∧ PChain prim p st.history) :
    MomentInv prim c (saveMoment prim c limit st) := by
  refine ⟨rfl, ?_, rfl⟩
  have hh : (saveMoment prim c limit st).history =
      (match st.present with
       | none => []
       | some p =>
          [createHistory prim (SimpleBackup.createBackup (.obj st.live) c) p]) ++
      (match limit with | none => st.history | some l => st.history.take l) := rfl
  have hl : (saveMoment prim c limit st).live = st.live := rfl
  rw [hl, hh]
  rcases h with ⟨hp, hhe⟩ | ⟨p, hp, hch⟩
  · rw [hp, hhe]
    cases limit with
    | none => exact PChain.nil _
    | some l =>
      dsimp only []
      rw [List.take_nil]
      exact PChain.nil _
  · rw [hp]
    dsimp only []
    simp only [List.singleton_append]
    cases limit with
    | none => exact PChain.cons _ p _ hch
    | some l => exact PChain.cons _ p _ (PChain_take prim p st.history hch l)

theorem foldl_markers_MomentInv {Δ : Type} (prim : DiffPrim Δ)
    (reducer : Option Obj → String → Obj) (c : SimpleBackup.SChildren)
    (limit : Option Nat) :
    ∀ (acts : List String) (s : Option (Envelope Δ)),
      (∀ a ∈ acts, strContains a undoableMarker = true) →
      (s = none ∨ ∃ e, s = some e
        ∧ ∃ p, e.present = some p ∧ PChain prim p e.history) →
      acts ≠ [] →
      ∃ e, acts.foldl
          (fun s a => some (undoableReducer prim reducer c limit s a)) s = some e
        ∧ MomentInv prim c e
  | [], _, _, _, hne => absurd rfl hne
  | a :: rest, s, hmk, hpre, _ => by
    have hstep : undoableReducer prim reducer c limit s a =
        saveMoment prim c limit (migrateStep reducer s a) :=
      undoableReducer_marker prim reducer c limit s a (hmk a (by simp))
    have hmi : MomentInv prim c
        (saveMoment prim c limit (migrateStep reducer s a)) := by
      apply saveMoment_MomentInv
      rcases hpre with h | ⟨e, he, p, hp, hch⟩
      · subst h
        exact Or.inl ⟨rfl, rfl⟩
      · subst he
        exact Or.inr ⟨p, hp, hch⟩
    cases rest with
    | nil =>
      refine ⟨saveMoment prim c limit (migrateStep reducer s a), ?_, hmi⟩
      simp only [List.foldl, hstep]
    | cons b bs =>
      have hnext := foldl_markers_MomentInv prim reducer c limit (b :: bs)
        (some (undoableReducer prim reducer c limit s a))
        (fun x hx => hmk x (by simp [hx]))
        (Or.inr ⟨undoableReducer prim reducer c limit s a, rfl, by
          rw [hstep]
          exact ⟨_, hmi.1, hmi.2.1⟩⟩)
        (by simp)
      simpa only [List.foldl] using hnext

theorem undo_step_UndoInv {Δ : Type} (prim : DiffPrim Δ)
    (reducer : Option Obj → String → Obj) (c : SimpleBackup.SChildren)
    (limit : Option Nat) (live0 pTop : Obj) (e : Envelope Δ)
    (hL1 : ∀ a b, prim.patch a (prim.diff a b) = b)
    (hnd : (SimpleBackup.keysS c).Nodup)
    (hsent : reducer (some e.live) undoType = e.live)
    (hinv : UndoInv prim c live0 pTop e) :
    UndoInv prim c live0 pTop (stepUR prim reducer c limit undoType e)
      ∧ (stepUR prim reducer c limit undoType e).future.length
          ≤ e.future.length + 1 := by
  obtain ⟨p, hp, hch, hft, hfr, hcv⟩ := hinv
  have hred : stepUR prim reducer c limit undoType e = restoreMoment prim c e 1 :=
    undoableReducer_undo prim reducer c limit e hsent
  cases hh : e.history with
  | nil =>
    have hnoop : restoreMoment prim c e 1 = e := by
      apply restoreMoment_noop
      right
      left
      rw [hh]
      exact ⟨by decide, by simp⟩
    rw [hred, hnoop]
    exact ⟨⟨p, hp, hch, hft, hfr, hcv⟩, by omega⟩
  | cons d hs =>
    rw [hh] at hch
    cases hch with
    | cons p p' hs hch' =>
      have hstep := restoreMoment_undo_step prim c e p (prim.diff p p') hs hp hh
      rw [hL1 p p'] at hstep
      rw [hred, hstep]
      refine ⟨⟨p', rfl, hch', ?_, ?_, ?_⟩, ?_⟩
      · exact FTop.cons pTop p p' e.future hft
      · intro k hk
        have hload := SimpleBackup.loadBackup_get_uncovered (.obj e.live)
          (.obj p') c k hk
        rw [hload]
        exact hfr k hk
      · right
        intro k sv ld hlk
        exact SimpleBackup.loadBackup_get_covered (.obj e.live) (.obj p') c k
          sv ld hnd hlk
      · simp

theorem undo_iter_UndoInv {Δ : Type} (prim : DiffPrim Δ)
    (reducer : Option Obj → String → Obj) (c : SimpleBackup.SChildren)
    (limit : Option Nat) (live0 pTop : Obj)
    (hL1 : ∀ a b, prim.patch a (prim.diff a b) = b)
    (hnd : (SimpleBackup.keysS c).Nodup)
    (hsent : ∀ x, reducer (some x) undoType = x) :
    ∀ (k : Nat) (e : Envelope Δ), UndoInv prim c live0 pTop e →
      UndoInv prim c live0 pTop ((stepUR prim reducer c limit undoType)^[k] e)
        ∧ ((stepUR prim reducer c limit undoType)^[k] e).future.length
            ≤ e.future.length + k := by
  intro k
  induction k with
  | zero =>
    intro e hinv
    rw [Function.iterate_zero_apply]
    exact ⟨hinv, by omega⟩
  | succ k ih =>
    intro e hinv
    obtain ⟨h1, h2⟩ := undo_step_UndoInv prim reducer c limit live0 pTop e hL1 hnd
      (hsent e.live) hinv
    obtain ⟨h3, h4⟩ := ih (stepUR prim reducer c limit undoType e) h1
    rw [Function.iterate_succ_apply]
    exact ⟨h3, by omega⟩

theorem redo_iter_MidInv {Δ : Type} (prim : DiffPrim Δ)
    (reducer : Option Obj → String → Obj) (c : SimpleBackup.SChildren)
    (limit : Option Nat) (live0 pTop : Obj)
    (hL2 : ∀ a b, prim.patch b (prim.reverse (prim.diff a b)) = a)
    (hnd : (SimpleBackup.keysS c).Nodup)
    (hsent : ∀ x, reducer (some x) redoType = x) :
    ∀ (k : Nat) (e : Envelope Δ), MidInv prim c live0 pTop e →
      e.future.length ≤ k →
      MidInv prim c live0 pTop ((stepUR prim reducer c limit redoType)^[k] e)
        ∧ ((stepUR prim reducer c limit redoType)^[k] e).future = [] := by
  intro k
  induction k with
  | zero =>
    intro e hinv hlen
    rw [Function.iterate_zero_apply]
    exact ⟨hinv, List.eq_nil_of_length_eq_zero (by omega)⟩
  | succ k ih =>
    intro e hinv hlen
    obtain ⟨p, hp, hft, hfr, hcv⟩ := hinv
    have hred : stepUR prim reducer c limit redoType e = restoreMoment prim c e (-1) :=
      undoableReducer_redo prim reducer c limit e (hsent e.live)
    rw [Function.iterate_succ_apply]
    cases hf : e.future with
    | nil =>
      have hnoop : restoreMoment prim c e (-1) = e := by
        apply restoreMoment_noop
        right
        right
        rw [hf]
        exact ⟨by decide, by simp⟩
      rw [hred, hnoop]
      exact ih e ⟨p, hp, hft, hfr, hcv⟩ (by rw [hf]; simp)
    | cons f fs =>
      rw [hf] at hft
      cases hft with
      | cons pUp unusedA unusedB hft' =>
        have hstep := restoreMoment_redo_step prim c e p
          (prim.reverse (prim.diff pUp p)) fs hp hf
        rw [hL2 pUp p] at hstep
        rw [hred, hstep]
        refine ih _ ⟨pUp, rfl, hft', ?_, ?_⟩ ?_
        · intro kk hk
          have hload := SimpleBackup.loadBackup_get_uncovered (.obj e.live)
            (.obj pUp) c kk hk
          rw [hload]
          exact hfr kk hk
        · right
          intro kk sv ld hlk
          exact SimpleBackup.loadBackup_get_covered (.obj e.live) (.obj pUp) c kk
            sv ld hnd hlk
        · have : e.future.length ≤ k + 1 := hlen
          rw [hf] at this
          simp at this
          simpa using this

/-- C4: run the undoable reducer over N moment-recording actions (N at least
1); for every k between 1 and N, dispatching the undo action k times and then
the redo action k times returns an envelope whose present snapshot equals the
one held immediately before the first undo and whose live state holds the
same value at every key.  Hypotheses: the external delta primitive satisfies
its two inverse laws, the backup interface is a flat list of slice codecs
over pairwise-distinct keys, the wrapped reducer leaves its state unchanged
on the two sentinel actions, and the codecs round-trip the live values held
before the first undo. -/
theorem C4_undo_redo_inverse {Δ : Type} (prim : DiffPrim Δ)
    (reducer : Option Obj → String → Obj) (c : SimpleBackup.SChildren)
    (limit : Option Nat)
    (hL1 : ∀ a b, prim.patch a (prim.diff a b) = b)
    (hL2 : ∀ a b, prim.patch b (prim.reverse (prim.diff a b)) = a)
    (hflat : SimpleBackup.FlatS c) (hnd : (SimpleBackup.keysS c).Nodup)
    (hsu : ∀ x, reducer (some x) undoType = x)
    (hsr : ∀ x, reducer (some x) redoType = x)
    (acts : List String) (hne : acts ≠ [])
    (hmk : ∀ a ∈ acts, strContains a undoableMarker = true)
    (e : Envelope Δ)
    (hrun : runUndoable prim reducer c limit acts = some e)
    (hrt : ∀ k sv ld, SimpleBackup.lookupS c k = some (some (.sliceS sv ld)) →
      ld (sv (vGet (.obj e.live) k)) = objGet e.live k)
    (k : Nat) (hk1 : 1 ≤ k) (hkN : k ≤ acts.length) :
    ((stepUR prim reducer c limit redoType)^[k]
        ((stepUR prim reducer c limit undoType)^[k] e)).present = e.present
      ∧ ∀ key, objGet ((stepUR prim reducer c limit redoType)^[k]
          ((stepUR prim reducer c limit undoType)^[k] e)).live key
        = objGet e.live key := by
  obtain ⟨e', hrun', hmi⟩ :=
    foldl_markers_MomentInv prim reducer c limit acts none hmk (Or.inl rfl) hne
  have he : e' = e := by
    have hse : some e' = some e := by rw [← hrun', ← hrun]; rfl
    exact Option.some.inj hse
  subst he
  obtain ⟨hpres, hch, hfut⟩ := hmi
  set P := SimpleBackup.createBackup (.obj e'.live) c with hPdef
  obtain ⟨hui, hulen⟩ :=
    undo_iter_UndoInv prim reducer c limit e'.live P hL1 hnd hsu k e'
      ⟨P, hpres, hch, by rw [hfut]; exact FTop.nil P, fun _ _ => rfl, Or.inl rfl⟩
  obtain ⟨⟨p, hp, hft, hfr, hcv⟩, hrf⟩ :=
    redo_iter_MidInv prim reducer c limit e'.live P hL2 hnd hsr k
      ((stepUR prim reducer c limit undoType)^[k] e')
      (UndoInv_MidInv _ _ _ _ _ hui)
      (by rw [hfut] at hulen; simpa using hulen)
  rw [hrf] at hft
  cases hft
  constructor
  · rw [hp, hpres]
  · intro key
    rcases hcv with hl | hc
    · rw [hl]
    · rcases SimpleBackup.flat_cases key c hflat hnd with hun | ⟨sv, ld, hlk⟩
      · exact hfr key hun
      · rw [hc key sv ld hlk]
        have hP : objGet P key = sv (vGet (.obj e'.live) key) :=
          SimpleBackup.createBackup_get_cov (.obj e'.live) c key sv ld hnd hlk
        have hv : vGet (.obj P) key = objGet P key := rfl
        rw [hv, hP]
        exact hrt key sv ld hlk

/-- A reducer that keeps the previous live state on every action and seeds a
one-key record on initialisation; on the sentinel actions it is the identity
the orchestrator expects. -/
def idKeepReducer : Option Obj → String → Obj :=
  fun s _ => s.getD [("x", .num 1)]

/-- The envelope after two moment-recording actions of the witness run. -/
def c4Env : Envelope (Obj × Obj) :=
  (runUndoable pairDelta idKeepReducer xIface none
    ["go/undoable/one", "go/undoable/two"]).getD ⟨[], [], none, []⟩

theorem C4_undo_redo_inverse_witness :
    ((stepUR pairDelta idKeepReducer xIface none redoType)^[1]
        ((stepUR pairDelta idKeepReducer xIface none undoType)^[1] c4Env)).present
      = c4Env.present
    ∧ ∀ key, objGet ((stepUR pairDelta idKeepReducer xIface none redoType)^[1]
        ((stepUR pairDelta idKeepReducer xIface none undoType)^[1] c4Env)).live key
      = objGet c4Env.live key :=
  C4_undo_redo_inverse pairDelta idKeepReducer xIface none
    (fun _ _ => rfl) (fun _ _ => rfl) trivial (by decide)
    (fun _ => rfl) (fun _ => rfl)
    ["go/undoable/one", "go/undoable/two"] (by decide) (by decide)
    c4Env rfl
    (by
      intro key sv ld h
      by_cases hx : "x" = key
      · subst hx
        simp only [xIface, SimpleBackup.lookupS, if_pos rfl, if_true, Option.some.injEq,
          SimpleBackup.SNode.sliceS.injEq] at h
        obtain ⟨hsv, hld⟩ := h
        rw [← hsv, ← hld]
        rfl
      · simp only [xIface, SimpleBackup.lookupS, if_neg hx] at h
        exact absurd h (by simp))
    1 (by decide) (by decide)
